import Mathlib

/-!
Shallow embedding of the diff/patch engine of this repository
(line aligner, hunk builder, word aligner, apply-patch normalizer,
diff-row classifier, tool-payload field resolution), together with
theorems checking the specification's claims against it.

Machine strings are modelled as Lean `String` / `List Char`; JavaScript
array indexing with the `?? 0` / `?? ""` fallbacks is modelled by guarded
`List.get`, whose guards are exactly the loop bounds of the source.
-/

namespace Cch

/-- Kind of a line-level edit operation (`"equal" | "remove" | "add"`). -/
inductive OpKind where
  | equal : OpKind
  | remove : OpKind
  | add : OpKind
deriving DecidableEq, Repr

/-- One entry of the edit script produced by `buildLineOperations`:
`{ type, line, oldLine, newLine }` (the source uses `0` for absent numbers). -/
structure LineOp where
  kind : OpKind
  line : String
  oldLine : Nat
  newLine : Nat
deriving DecidableEq, Repr

/-- Whether an op is an Add (used to phrase "keep Equal and Remove"). -/
def LineOp.isAdd (op : LineOp) : Bool :=
  match op.kind with
  | .add => true
  | _ => false

/-- Whether an op is a Remove (used to phrase "keep Equal and Add"). -/
def LineOp.isRemove (op : LineOp) : Bool :=
  match op.kind with
  | .remove => true
  | _ => false

/-- Whether an op is an Equal. -/
def LineOp.isEqual (op : LineOp) : Bool :=
  match op.kind with
  | .equal => true
  | _ => false

@[simp] theorem LineOp.isAdd_mk_equal (l : String) (o n : Nat) :
    LineOp.isAdd ⟨OpKind.equal, l, o, n⟩ = false := rfl

@[simp] theorem LineOp.isAdd_mk_remove (l : String) (o n : Nat) :
    LineOp.isAdd ⟨OpKind.remove, l, o, n⟩ = false := rfl

@[simp] theorem LineOp.isAdd_mk_add (l : String) (o n : Nat) :
    LineOp.isAdd ⟨OpKind.add, l, o, n⟩ = true := rfl

@[simp] theorem LineOp.isRemove_mk_equal (l : String) (o n : Nat) :
    LineOp.isRemove ⟨OpKind.equal, l, o, n⟩ = false := rfl

@[simp] theorem LineOp.isRemove_mk_remove (l : String) (o n : Nat) :
    LineOp.isRemove ⟨OpKind.remove, l, o, n⟩ = true := rfl

@[simp] theorem LineOp.isRemove_mk_add (l : String) (o n : Nat) :
    LineOp.isRemove ⟨OpKind.add, l, o, n⟩ = false := rfl

@[simp] theorem LineOp.isEqual_mk_equal (l : String) (o n : Nat) :
    LineOp.isEqual ⟨OpKind.equal, l, o, n⟩ = true := rfl

@[simp] theorem LineOp.isEqual_mk_remove (l : String) (o n : Nat) :
    LineOp.isEqual ⟨OpKind.remove, l, o, n⟩ = false := rfl

@[simp] theorem LineOp.isEqual_mk_add (l : String) (o n : Nat) :
    LineOp.isEqual ⟨OpKind.add, l, o, n⟩ = false := rfl

/-- The suffix LCS-length table built by the double loop of
`buildLineOperations` / `diffInlineSegments`: `matrix[i][j]` with
out-of-range reads giving `0` (the loops fill the table with exactly this
recurrence, in decreasing `i`, `j`). -/
def lcsTable (old new : List String) : Nat → Nat → Nat
  | i, j =>
    if h : i < old.length ∧ j < new.length then
      if old.get ⟨i, h.1⟩ = new.get ⟨j, h.2⟩ then
        lcsTable old new (i + 1) (j + 1) + 1
      else
        max (lcsTable old new (i + 1) j) (lcsTable old new i (j + 1))
    else 0
termination_by i j => (old.length - i) + (new.length - j)
decreasing_by
  · omega
  · omega
  · omega

/-- The trailing `while (i < oldLines.length)` loop of `buildLineOperations`:
emit a Remove op for every remaining old line. -/
def tailRemoveOps (old : List String) : Nat → Nat → List LineOp
  | i, oldLn =>
    if h : i < old.length then
      ⟨.remove, old.get ⟨i, h⟩, oldLn, 0⟩ :: tailRemoveOps old (i + 1) (oldLn + 1)
    else []
termination_by i _ => old.length - i
decreasing_by omega

/-- The trailing `while (j < newLines.length)` loop of `buildLineOperations`:
emit an Add op for every remaining new line. -/
def tailAddOps (new : List String) : Nat → Nat → List LineOp
  | j, newLn =>
    if h : j < new.length then
      ⟨.add, new.get ⟨j, h⟩, 0, newLn⟩ :: tailAddOps new (j + 1) (newLn + 1)
    else []
termination_by j _ => new.length - j
decreasing_by omega

/-- The forward walk of `buildLineOperations` from `(i, j)` with line-number
counters `oldLn`, `newLn`: emit Equal on match, otherwise take the branch with
the larger table value (tie prefers Remove, i.e. `matrix[i+1][j] >= matrix[i][j+1]`),
then run the two trailing loops. -/
def buildOpsWalk (old new : List String) : Nat → Nat → Nat → Nat → List LineOp
  | i, j, oldLn, newLn =>
    if h : i < old.length ∧ j < new.length then
      if old.get ⟨i, h.1⟩ = new.get ⟨j, h.2⟩ then
        ⟨.equal, old.get ⟨i, h.1⟩, oldLn, newLn⟩ ::
          buildOpsWalk old new (i + 1) (j + 1) (oldLn + 1) (newLn + 1)
      else if lcsTable old new (i + 1) j ≥ lcsTable old new i (j + 1) then
        ⟨.remove, old.get ⟨i, h.1⟩, oldLn, 0⟩ ::
          buildOpsWalk old new (i + 1) j (oldLn + 1) newLn
      else
        ⟨.add, new.get ⟨j, h.2⟩, 0, newLn⟩ ::
          buildOpsWalk old new i (j + 1) oldLn (newLn + 1)
    else
      tailRemoveOps old i oldLn ++ tailAddOps new j newLn
termination_by i j _ _ => (old.length - i) + (new.length - j)
decreasing_by
  · omega
  · omega
  · omega

/-- `buildLineOperations(oldLines, newLines)`: the whole edit script, walking
from `(0, 0)` with both line counters starting at 1. -/
def buildLineOperations (old new : List String) : List LineOp :=
  buildOpsWalk old new 0 0 1 1

theorem tailRemoveOps_filter_map (old : List String) (i oldLn : Nat) :
    ((tailRemoveOps old i oldLn).filter (fun op => !op.isAdd)).map
        (fun op => op.line) = old.drop i := by
  induction i, oldLn using tailRemoveOps.induct old with
  | case1 i oldLn h ih =>
    rw [tailRemoveOps, dif_pos h, List.drop_eq_getElem_cons h]
    simp [List.filter_cons, ih, List.get_eq_getElem]
  | case2 i oldLn h =>
    rw [tailRemoveOps, dif_neg h, List.drop_eq_nil_of_le (by omega)]
    rfl

theorem tailAddOps_filter_map (new : List String) (j newLn : Nat) :
    ((tailAddOps new j newLn).filter (fun op => !op.isRemove)).map
        (fun op => op.line) = new.drop j := by
  induction j, newLn using tailAddOps.induct new with
  | case1 j newLn h ih =>
    rw [tailAddOps, dif_pos h, List.drop_eq_getElem_cons h]
    simp [List.filter_cons, ih, List.get_eq_getElem]
  | case2 j newLn h =>
    rw [tailAddOps, dif_neg h, List.drop_eq_nil_of_le (by omega)]
    rfl

theorem tailRemoveOps_filter_remove (old : List String) (i oldLn : Nat) :
    (tailRemoveOps old i oldLn).filter (fun op => !op.isRemove) = [] := by
  induction i, oldLn using tailRemoveOps.induct old with
  | case1 i oldLn h ih =>
    rw [tailRemoveOps, dif_pos h]
    simp [List.filter_cons, ih]
  | case2 i oldLn h => rw [tailRemoveOps, dif_neg h]; rfl

theorem tailAddOps_filter_add (new : List String) (j newLn : Nat) :
    (tailAddOps new j newLn).filter (fun op => !op.isAdd) = [] := by
  induction j, newLn using tailAddOps.induct new with
  | case1 j newLn h ih =>
    rw [tailAddOps, dif_pos h]
    simp [List.filter_cons, ih]
  | case2 j newLn h => rw [tailAddOps, dif_neg h]; rfl

theorem buildOpsWalk_replay (old new : List String) (i j oldLn newLn : Nat) :
    ((buildOpsWalk old new i j oldLn newLn).filter
        (fun op => !op.isRemove)).map (fun op => op.line) = new.drop j ∧
    ((buildOpsWalk old new i j oldLn newLn).filter
        (fun op => !op.isAdd)).map (fun op => op.line) = old.drop i := by
  induction i, j, oldLn, newLn using buildOpsWalk.induct old new with
  | case1 i j oldLn newLn h heq ih =>
    rw [buildOpsWalk, dif_pos h, if_pos heq]
    have hg : (old.get ⟨i, h.1⟩ : String) = new.get ⟨j, h.2⟩ := heq
    refine ⟨?_, ?_⟩
    · simp only [List.filter_cons, LineOp.isRemove_mk_equal, Bool.not_false, if_true,
        List.map_cons, ih.1, List.get_eq_getElem] at hg ⊢
      rw [hg]
      exact (List.drop_eq_getElem_cons h.2).symm
    · simp only [List.filter_cons, LineOp.isAdd_mk_equal, Bool.not_false, if_true,
        List.map_cons, ih.2, List.get_eq_getElem]
      exact (List.drop_eq_getElem_cons h.1).symm
  | case2 i j oldLn newLn h heq hge ih =>
    rw [buildOpsWalk, dif_pos h, if_neg heq, if_pos hge]
    refine ⟨?_, ?_⟩
    · simp only [List.filter_cons, LineOp.isRemove_mk_remove, Bool.not_true,
        if_false, Bool.false_eq_true, ite_false, ih.1]
    · simp only [List.filter_cons, LineOp.isAdd_mk_remove, Bool.not_false, if_true,
        List.map_cons, ih.2, List.get_eq_getElem]
      exact (List.drop_eq_getElem_cons h.1).symm
  | case3 i j oldLn newLn h heq hge ih =>
    rw [buildOpsWalk, dif_pos h, if_neg heq, if_neg hge]
    refine ⟨?_, ?_⟩
    · simp only [List.filter_cons, LineOp.isRemove_mk_add, Bool.not_false, if_true,
        List.map_cons, ih.1, List.get_eq_getElem]
      exact (List.drop_eq_getElem_cons h.2).symm
    · simp only [List.filter_cons, LineOp.isAdd_mk_add, Bool.not_true,
        Bool.false_eq_true, ite_false, ih.2]
  | case4 i j oldLn newLn h =>
    rw [buildOpsWalk, dif_neg h]
    push_neg at h
    refine ⟨?_, ?_⟩
    · rw [List.filter_append, List.map_append, tailRemoveOps_filter_remove,
        tailAddOps_filter_map]
      by_cases hi : i < old.length
      · have hj : new.length ≤ j := by omega
        rw [List.drop_eq_nil_of_le hj]
        rfl
      · by_cases hj : j < new.length
        · rfl
        · rw [List.drop_eq_nil_of_le (by omega)]
          rfl
    · rw [List.filter_append, List.map_append, tailRemoveOps_filter_map,
        tailAddOps_filter_add]
      simp

/-- C1: replaying the edit script of `alignLines` by keeping Equal and Add
lines in order reconstructs `new` exactly, and keeping Equal and Remove lines
reconstructs `old` exactly (so all old and new lines are covered exactly once,
including for empty inputs). -/
theorem alignLines_replay (old new : List String) :
    ((buildLineOperations old new).filter
        (fun op => !op.isRemove)).map (fun op => op.line) = new ∧
    ((buildLineOperations old new).filter
        (fun op => !op.isAdd)).map (fun op => op.line) = old := by
  have h := buildOpsWalk_replay old new 0 0 1 1
  simpa [buildLineOperations] using h

/-- Reference definition of longest-common-subsequence length, written from
the spec's words ("the maximum-length sequence of elements appearing in the
same relative order in both inputs"); used to compare the walk's Equal ops
against the optimum. -/
def lcsLen : List String → List String → Nat
  | [], _ => 0
  | _ :: _, [] => 0
  | a :: as, b :: bs =>
    if a = b then lcsLen as bs + 1
    else max (lcsLen (a :: as) bs) (lcsLen as (b :: bs))
termination_by xs ys => xs.length + ys.length

theorem lcsLen_nil_right (xs : List String) : lcsLen xs [] = 0 := by
  cases xs with
  | nil => simp [lcsLen]
  | cons a as => simp [lcsLen]

theorem lcsTable_eq_lcsLen (old new : List String) (i j : Nat) :
    lcsTable old new i j = lcsLen (old.drop i) (new.drop j) := by
  induction i, j using lcsTable.induct old new with
  | case1 i j h heq ih =>
    rw [lcsTable, dif_pos h, if_pos heq, ih,
      List.drop_eq_getElem_cons h.1, List.drop_eq_getElem_cons h.2, lcsLen]
    rw [if_pos (by simpa [List.get_eq_getElem] using heq)]
  | case2 i j h heq ih1 ih2 =>
    rw [lcsTable, dif_pos h, if_neg heq, ih1, ih2]
    conv_rhs => rw [List.drop_eq_getElem_cons h.1, List.drop_eq_getElem_cons h.2, lcsLen]
    rw [if_neg (by simpa [List.get_eq_getElem] using heq)]
    rw [← List.drop_eq_getElem_cons h.1, ← List.drop_eq_getElem_cons h.2]
    exact max_comm _ _
  | case3 i j h =>
    rw [lcsTable, dif_neg h]
    push_neg at h
    by_cases hi : i < old.length
    · rw [List.drop_eq_nil_of_le (by omega : new.length ≤ j), lcsLen_nil_right]
    · rw [List.drop_eq_nil_of_le (by omega : old.length ≤ i)]
      simp [lcsLen]

theorem tailRemoveOps_filter_equal (old : List String) (i oldLn : Nat) :
    (tailRemoveOps old i oldLn).filter (fun op => op.isEqual) = [] := by
  induction i, oldLn using tailRemoveOps.induct old with
  | case1 i oldLn h ih =>
    rw [tailRemoveOps, dif_pos h]
    simp [List.filter_cons, ih]
  | case2 i oldLn h => rw [tailRemoveOps, dif_neg h]; rfl

theorem tailAddOps_filter_equal (new : List String) (j newLn : Nat) :
    (tailAddOps new j newLn).filter (fun op => op.isEqual) = [] := by
  induction j, newLn using tailAddOps.induct new with
  | case1 j newLn h ih =>
    rw [tailAddOps, dif_pos h]
    simp [List.filter_cons, ih]
  | case2 j newLn h => rw [tailAddOps, dif_neg h]; rfl

theorem buildOpsWalk_equal_count (old new : List String) (i j oldLn newLn : Nat) :
    ((buildOpsWalk old new i j oldLn newLn).filter
        (fun op => op.isEqual)).length = lcsTable old new i j := by
  induction i, j, oldLn, newLn using buildOpsWalk.induct old new with
  | case1 i j oldLn newLn h heq ih =>
    rw [buildOpsWalk, dif_pos h, if_pos heq, lcsTable, dif_pos h, if_pos heq]
    simp only [List.filter_cons, LineOp.isEqual_mk_equal, if_true, List.length_cons, ih]
  | case2 i j oldLn newLn h heq hge ih =>
    rw [buildOpsWalk, dif_pos h, if_neg heq, if_pos hge, lcsTable, dif_pos h, if_neg heq]
    rw [max_eq_left hge]
    simp only [List.filter_cons, LineOp.isEqual_mk_remove, Bool.false_eq_true,
      ite_false, ih]
  | case3 i j oldLn newLn h heq hge ih =>
    rw [buildOpsWalk, dif_pos h, if_neg heq, if_neg hge, lcsTable, dif_pos h, if_neg heq]
    rw [max_eq_right (le_of_not_le hge)]
    simp only [List.filter_cons, LineOp.isEqual_mk_add, Bool.false_eq_true,
      ite_false, ih]
  | case4 i j oldLn newLn h =>
    rw [buildOpsWalk, dif_neg h, lcsTable, dif_neg h, List.filter_append,
      tailRemoveOps_filter_equal, tailAddOps_filter_equal]
    rfl

theorem buildOpsWalk_equal_sublist (old new : List String) (i j oldLn newLn : Nat) :
    (((buildOpsWalk old new i j oldLn newLn).filter
        (fun op => op.isEqual)).map (fun op => op.line)).Sublist (old.drop i) ∧
    (((buildOpsWalk old new i j oldLn newLn).filter
        (fun op => op.isEqual)).map (fun op => op.line)).Sublist (new.drop j) := by
  induction i, j, oldLn, newLn using buildOpsWalk.induct old new with
  | case1 i j oldLn newLn h heq ih =>
    rw [buildOpsWalk, dif_pos h, if_pos heq]
    have hg : (old.get ⟨i, h.1⟩ : String) = new.get ⟨j, h.2⟩ := heq
    refine ⟨?_, ?_⟩
    · rw [List.drop_eq_getElem_cons h.1]
      simp only [List.filter_cons, LineOp.isEqual_mk_equal, if_true, List.map_cons,
        List.get_eq_getElem]
      exact List.Sublist.cons₂ _ ih.1
    · rw [List.drop_eq_getElem_cons h.2]
      simp only [List.filter_cons, LineOp.isEqual_mk_equal, if_true, List.map_cons,
        List.get_eq_getElem] at hg ⊢
      rw [hg]
      exact List.Sublist.cons₂ _ ih.2
  | case2 i j oldLn newLn h heq hge ih =>
    rw [buildOpsWalk, dif_pos h, if_neg heq, if_pos hge]
    refine ⟨?_, ?_⟩
    · rw [List.drop_eq_getElem_cons h.1]
      simp only [List.filter_cons, LineOp.isEqual_mk_remove, Bool.false_eq_true, ite_false]
      exact List.Sublist.cons _ ih.1
    · simp only [List.filter_cons, LineOp.isEqual_mk_remove, Bool.false_eq_true, ite_false]
      exact ih.2
  | case3 i j oldLn newLn h heq hge ih =>
    rw [buildOpsWalk, dif_pos h, if_neg heq, if_neg hge]
    refine ⟨?_, ?_⟩
    · simp only [List.filter_cons, LineOp.isEqual_mk_add, Bool.false_eq_true, ite_false]
      exact ih.1
    · rw [List.drop_eq_getElem_cons h.2]
      simp only [List.filter_cons, LineOp.isEqual_mk_add, Bool.false_eq_true, ite_false]
      exact List.Sublist.cons _ ih.2
  | case4 i j oldLn newLn h =>
    rw [buildOpsWalk, dif_neg h, List.filter_append, tailRemoveOps_filter_equal,
      tailAddOps_filter_equal]
    exact ⟨List.nil_sublist _, List.nil_sublist _⟩

theorem length_le_lcsLen (xs : List String) :
    ∀ ys cs : List String, cs.Sublist xs → cs.Sublist ys → cs.length ≤ lcsLen xs ys := by
  induction xs with
  | nil =>
    intro ys cs h1 _
    rw [List.sublist_nil.mp h1]
    exact Nat.zero_le _
  | cons a as ihx =>
    intro ys
    induction ys with
    | nil =>
      intro cs _ h2
      rw [List.sublist_nil.mp h2]
      exact Nat.zero_le _
    | cons b bs ihy =>
      intro cs h1 h2
      by_cases hab : a = b
      · rw [lcsLen, if_pos hab]
        cases cs with
        | nil => exact Nat.zero_le _
        | cons c cs0 =>
          have h1t : cs0.Sublist as := by
            cases h1 with
            | cons _ h => exact (List.sublist_cons_self c cs0).trans h
            | cons₂ _ h => exact h
          have h2t : cs0.Sublist bs := by
            cases h2 with
            | cons _ h => exact (List.sublist_cons_self c cs0).trans h
            | cons₂ _ h => exact h
          simpa using Nat.succ_le_succ (ihx bs cs0 h1t h2t)
      · rw [lcsLen, if_neg hab]
        cases h1 with
        | cons _ h1t =>
          exact le_trans (ihx (b :: bs) cs h1t h2) (le_max_right _ _)
        | cons₂ _ h1t =>
          rename_i cs0
          cases h2 with
          | cons _ h2t =>
            exact le_trans (ihy (a :: cs0) (List.Sublist.cons₂ _ h1t) h2t)
              (le_max_left _ _)
          | cons₂ _ _ => exact absurd rfl hab

/-- C2: the Equal ops of `alignLines(old, new)` form a longest common
subsequence of the two inputs: their lines are a common subsequence of `old`
and `new` under exact string equality, and no common subsequence `cs` of the
inputs is longer. -/
theorem alignLines_equal_ops_lcs (old new cs : List String)
    (h1 : cs.Sublist old) (h2 : cs.Sublist new) :
    (((buildLineOperations old new).filter (fun op => op.isEqual)).map
        (fun op => op.line)).Sublist old ∧
    (((buildLineOperations old new).filter (fun op => op.isEqual)).map
        (fun op => op.line)).Sublist new ∧
    cs.length ≤ (((buildLineOperations old new).filter (fun op => op.isEqual)).map
        (fun op => op.line)).length := by
  have hsub := buildOpsWalk_equal_sublist old new 0 0 1 1
  have hcount := buildOpsWalk_equal_count old new 0 0 1 1
  have htable := lcsTable_eq_lcsLen old new 0 0
  simp only [List.drop_zero] at hsub htable
  refine ⟨hsub.1, hsub.2, ?_⟩
  rw [List.length_map, buildLineOperations, hcount, htable]
  exact length_le_lcsLen old new cs h1 h2

/-- Witness for C2 at a concrete input: `old = ["a", "b"]`, `new = ["b", "c"]`,
common subsequence `cs = ["b"]`. -/
theorem alignLines_equal_ops_lcs_witness :
    ((((buildLineOperations ["a", "b"] ["b", "c"]).filter
        (fun op => op.isEqual)).map (fun op => op.line)).Sublist ["a", "b"]) ∧
    ((((buildLineOperations ["a", "b"] ["b", "c"]).filter
        (fun op => op.isEqual)).map (fun op => op.line)).Sublist ["b", "c"]) ∧
    ["b"].length ≤ (((buildLineOperations ["a", "b"] ["b", "c"]).filter
        (fun op => op.isEqual)).map (fun op => op.line)).length :=
  alignLines_equal_ops_lcs ["a", "b"] ["b", "c"] ["b"] (by decide) (by decide)

/-- `operations[p]?.type === "equal"` as a Bool, with out-of-range reads
treated as equal (every use below is guarded by a bounds check, exactly as
in the source loops). -/
def eqAt (ops : List LineOp) (p : Nat) : Bool :=
  ((ops.get? p).map LineOp.isEqual).getD true

/-- The `firstChange` scan of `buildDiffHunks`: the smallest index at or
after `cursor` holding a non-Equal op, if any. -/
def findFirstChange (ops : List LineOp) (cursor : Nat) : Option Nat :=
  if h : cursor < ops.length then
    if eqAt ops cursor then findFirstChange ops (cursor + 1) else some cursor
  else none
termination_by ops.length - cursor
decreasing_by omega

/-- The inner window scan of `buildDiffHunks` from `index` with state
`(hunkEnd, lastChange)`: extend `lastChange` on non-Equal ops, stop when the
current index is more than `context` past `lastChange`, otherwise advance
`hunkEnd` to the current index. -/
def scanHunk (ops : List LineOp) (context : Nat) (index hunkEnd lastChange : Nat) :
    Nat × Nat :=
  if h : index < ops.length then
    let lc := if eqAt ops index then lastChange else index
    if index - lc > context then (hunkEnd, lc)
    else scanHunk ops context (index + 1) index lc
  else (hunkEnd, lastChange)
termination_by ops.length - index
decreasing_by omega

/-- One iteration of the `while (cursor < operations.length)` loop of
`buildDiffHunks`: the index range `[hunkStart, hunkEnd]` of the next hunk
(the ops sliced into it), or `none` when no change remains. -/
def nextRange (ops : List LineOp) (context cursor : Nat) : Option (Nat × Nat) :=
  match findFirstChange ops cursor with
  | none => none
  | some firstChange =>
    let scanned := scanHunk ops context (firstChange + 1) firstChange firstChange
    let hunkEnd1 := min (ops.length - 1) scanned.1
    let hunkEnd2 :=
      if scanned.2 + context > hunkEnd1 then min (ops.length - 1) (scanned.2 + context)
      else hunkEnd1
    let hunkStart0 := firstChange - context
    let hunkStart := if hunkStart0 > hunkEnd2 then hunkEnd2 else hunkStart0
    some (hunkStart, hunkEnd2)

theorem findFirstChange_none_of_ge (ops : List LineOp) (cursor : Nat)
    (h : ops.length ≤ cursor) : findFirstChange ops cursor = none := by
  rw [findFirstChange, dif_neg (by omega)]

theorem findFirstChange_spec (ops : List LineOp) :
    ∀ cursor q, findFirstChange ops cursor = some q →
      cursor ≤ q ∧ q < ops.length ∧ eqAt ops q = false ∧
        ∀ p, cursor ≤ p → p < q → eqAt ops p = true := by
  intro cursor
  induction cursor using findFirstChange.induct ops with
  | case1 cursor h heq ih =>
    intro q hq
    rw [findFirstChange, dif_pos h, if_pos heq] at hq
    obtain ⟨h1, h2, h3, h4⟩ := ih q hq
    refine ⟨by omega, h2, h3, ?_⟩
    intro p hp1 hp2
    rcases Nat.eq_or_lt_of_le hp1 with hpe | hpl
    · rw [← hpe]; exact heq
    · exact h4 p (by omega) hp2
  | case2 cursor h heq =>
    intro q hq
    rw [findFirstChange, dif_pos h, if_neg heq] at hq
    cases hq
    exact ⟨le_refl _, h, Bool.eq_false_iff.mpr heq, fun p hp1 hp2 => by omega⟩
  | case3 cursor h =>
    intro q hq
    rw [findFirstChange, dif_neg h] at hq
    cases hq

theorem findFirstChange_of_nonequal (ops : List LineOp) :
    ∀ cursor p, cursor ≤ p → p < ops.length → eqAt ops p = false →
      ∃ q, findFirstChange ops cursor = some q ∧ q ≤ p := by
  intro cursor
  induction cursor using findFirstChange.induct ops with
  | case1 cursor h heq ih =>
    intro p hp1 hp2 hp3
    have hcp : cursor ≠ p := by
      intro he
      rw [he] at heq
      rw [heq] at hp3
      cases hp3
    obtain ⟨q, hq1, hq2⟩ := ih p (by omega) hp2 hp3
    refine ⟨q, ?_, hq2⟩
    rw [findFirstChange, dif_pos h, if_pos heq]
    exact hq1
  | case2 cursor h heq =>
    intro p hp1 hp2 hp3
    refine ⟨cursor, ?_, hp1⟩
    rw [findFirstChange, dif_pos h, if_neg heq]
  | case3 cursor h =>
    intro p hp1 hp2 hp3
    omega

/-- Post-state of the inner window scan: `res = (hunkEnd, lastChange)` on
exit. `lastChange` marks the final non-Equal op of the window, everything
strictly after it inside the window is Equal, and the scan stopped either at
the end of the op list or at an Equal op more than `context` past
`lastChange`. -/
def scanPost (ops : List LineOp) (context hunkEnd lastChange : Nat) (res : Nat × Nat) :
    Prop :=
  lastChange ≤ res.2 ∧ hunkEnd ≤ res.1 ∧ res.2 ≤ res.1 ∧ res.1 < ops.length ∧
  eqAt ops res.2 = false ∧
  (∀ p, res.2 < p → p ≤ res.1 → eqAt ops p = true) ∧
  (res.1 = ops.length - 1 ∨
    (res.1 + 1 < ops.length ∧ eqAt ops (res.1 + 1) = true ∧ res.2 + context ≤ res.1)) ∧
  res.1 ≤ res.2 + context ∧
  (∀ b, lastChange < b → b ≤ res.2 → eqAt ops b = false →
    ∃ a, lastChange ≤ a ∧ a < b ∧ eqAt ops a = false ∧ b ≤ a + context + 1)

theorem scanHunk_spec_fuel (ops : List LineOp) (context : Nat) :
    ∀ n index hunkEnd lastChange, ops.length - index ≤ n →
      hunkEnd + 1 = index → lastChange ≤ hunkEnd → hunkEnd < ops.length →
      hunkEnd ≤ lastChange + context →
      eqAt ops lastChange = false →
      (∀ p, lastChange < p → p ≤ hunkEnd → eqAt ops p = true) →
      scanPost ops context hunkEnd lastChange
        (scanHunk ops context index hunkEnd lastChange) := by
  intro n
  induction n with
  | zero =>
    intro index hunkEnd lastChange hn h1 h2 h3 h6 h4 h5
    rw [scanHunk, dif_neg (by omega)]
    exact ⟨le_refl _, le_refl _, h2, h3, h4, h5, Or.inl (by omega), by omega,
      fun b hb1 hb2 hb3 => absurd (hb1.trans_le hb2) (lt_irrefl _)⟩
  | succ n ih =>
    intro index hunkEnd lastChange hn h1 h2 h3 h6 h4 h5
    by_cases h : index < ops.length
    · rw [scanHunk, dif_pos h]
      by_cases he : eqAt ops index = true
      · simp only [he, if_true]
        by_cases hbr : index - lastChange > context
        · rw [if_pos hbr]
          exact ⟨le_refl _, le_refl _, h2, h3, h4, h5,
            Or.inr ⟨by omega, by rw [show hunkEnd + 1 = index by omega]; exact he,
              by omega⟩, by omega,
            fun b hb1 hb2 hb3 => absurd (hb1.trans_le hb2) (lt_irrefl _)⟩
        · rw [if_neg hbr]
          have hstep := ih (index + 1) index lastChange (by omega) rfl (by omega) h
            (by omega) h4
            (fun p hp1 hp2 => by
              rcases Nat.lt_or_ge p index with hpl | hpg
              · exact h5 p hp1 (by omega)
              · rw [show p = index by omega]; exact he)
          obtain ⟨c1, c2, c3, c4, c5, c6, c7, c8, c9⟩ := hstep
          exact ⟨c1, by omega, c3, c4, c5, c6, c7, c8, c9⟩
      · rw [if_neg he]
        rw [if_neg (by omega : ¬index - index > context)]
        have he0 : eqAt ops index = false := Bool.eq_false_iff.mpr he
        have hstep := ih (index + 1) index index (by omega) rfl (le_refl _) h
          (by omega) he0
          (fun p hp1 hp2 => by omega)
        obtain ⟨c1, c2, c3, c4, c5, c6, c7, c8, c9⟩ := hstep
        refine ⟨by omega, by omega, c3, c4, c5, c6, c7, c8, ?_⟩
        intro b hb1 hb2 hb3
        rcases Nat.lt_or_ge index b with hbi | hbi
        · obtain ⟨a, ha1, ha2, ha3, ha4⟩ := c9 b hbi hb2 hb3
          exact ⟨a, by omega, ha2, ha3, ha4⟩
        · by_cases hbe : b = index
          · exact ⟨lastChange, le_refl _, by omega, h4, by omega⟩
          · have hbt : eqAt ops b = true := h5 b hb1 (by omega)
            rw [hbt] at hb3
            cases hb3
    · rw [scanHunk, dif_neg h]
      exact ⟨le_refl _, le_refl _, h2, h3, h4, h5, Or.inl (by omega), by omega,
        fun b hb1 hb2 hb3 => absurd (hb1.trans_le hb2) (lt_irrefl _)⟩

theorem scanHunk_spec (ops : List LineOp) (context : Nat) (firstChange : Nat)
    (hfc : firstChange < ops.length) (hne : eqAt ops firstChange = false) :
    scanPost ops context firstChange firstChange
      (scanHunk ops context (firstChange + 1) firstChange firstChange) :=
  scanHunk_spec_fuel ops context (ops.length - (firstChange + 1)) (firstChange + 1)
    firstChange firstChange (le_refl _) rfl (le_refl _) hfc (by omega) hne
    (fun p hp1 hp2 => by omega)

theorem nextRange_spec (ops : List LineOp) (context cursor s e : Nat)
    (h : nextRange ops context cursor = some (s, e)) :
    ∃ q lc, findFirstChange ops cursor = some q ∧
      s = q - context ∧ cursor ≤ q ∧ q ≤ lc ∧ lc ≤ e ∧ e < ops.length ∧
      eqAt ops q = false ∧ eqAt ops lc = false ∧
      (∀ p, cursor ≤ p → p < q → eqAt ops p = true) ∧
      (∀ p, lc < p → p ≤ e → eqAt ops p = true) ∧
      (e = ops.length - 1 ∨
        (e + 1 < ops.length ∧ eqAt ops (e + 1) = true ∧ lc + context ≤ e)) ∧
      e ≤ lc + context ∧
      (∀ b, q < b → b ≤ lc → eqAt ops b = false →
        ∃ a, q ≤ a ∧ a < b ∧ eqAt ops a = false ∧ b ≤ a + context + 1) := by
  unfold nextRange at h
  cases hfc : findFirstChange ops cursor with
  | none => rw [hfc] at h; cases h
  | some q =>
    rw [hfc] at h
    obtain ⟨hq1, hq2, hq3, hq4⟩ := findFirstChange_spec ops cursor q hfc
    obtain ⟨c1, c2, c3, c4, c5, c6, c7, c8, c9⟩ := scanHunk_spec ops context q hq2 hq3
    simp only [Option.some.injEq, Prod.mk.injEq] at h
    set A := (scanHunk ops context (q + 1) q q).1 with hA
    set B := (scanHunk ops context (q + 1) q q).2 with hB
    have hminA : min (ops.length - 1) A = A := min_eq_right (by omega)
    have hend2 : (if B + context > min (ops.length - 1) A then
        min (ops.length - 1) (B + context) else min (ops.length - 1) A) = A := by
      rw [hminA]
      by_cases hb : B + context > A
      · rw [if_pos hb]
        rcases c7 with h7 | h7
        · rw [← h7]
          exact min_eq_left (by omega)
        · omega
      · rw [if_neg hb]
    rw [hend2] at h
    have hse : s = q - context ∧ e = A := by
      have hs0 : ¬q - context > A := by omega
      rw [if_neg hs0] at h
      exact ⟨h.1.symm, h.2.symm⟩
    refine ⟨q, B, rfl, hse.1, hq1, c1, ?_, ?_, hq3, c5, hq4, ?_, ?_, ?_, ?_⟩
    · rw [hse.2]; exact c3
    · rw [hse.2]; exact c4
    · rw [hse.2]; exact c6
    · rw [hse.2]; exact c7
    · rw [hse.2]; exact c8
    · exact c9

theorem nextRange_some_bounds (ops : List LineOp) (context cursor s e : Nat)
    (h : nextRange ops context cursor = some (s, e)) :
    cursor ≤ e ∧ e < ops.length := by
  obtain ⟨q, lc, _, _, h3, h4, h5, h6, _⟩ := nextRange_spec ops context cursor s e h
  omega

/-- The outer hunk loop of `buildDiffHunks`: collect the index ranges of
successive hunks, restarting the scan at `hunkEnd + 1` after each. -/
def buildRangesAux (ops : List LineOp) (context : Nat) (cursor : Nat) :
    List (Nat × Nat) :=
  match h : nextRange ops context cursor with
  | none => []
  | some (s, e) => (s, e) :: buildRangesAux ops context (e + 1)
termination_by ops.length - cursor
decreasing_by
  have := nextRange_some_bounds ops context cursor s e h
  omega

theorem buildRangesAux_nil (ops : List LineOp) (context cursor : Nat)
    (h : findFirstChange ops cursor = none) :
    buildRangesAux ops context cursor = [] := by
  rw [buildRangesAux]
  split
  · rfl
  · rename_i s e heq
    simp only [nextRange, h] at heq
    exact Option.noConfusion heq

theorem buildRangesAux_mem_bounds (ops : List LineOp) (context : Nat) :
    ∀ n cursor, ops.length - cursor ≤ n →
      ∀ r, r ∈ buildRangesAux ops context cursor → cursor ≤ r.2 ∧ r.2 < ops.length := by
  intro n
  induction n with
  | zero =>
    intro cursor hn r hr
    rw [buildRangesAux_nil ops context cursor
      (findFirstChange_none_of_ge ops cursor (by omega))] at hr
    cases hr
  | succ n ih =>
    intro cursor hn r hr
    rw [buildRangesAux] at hr
    split at hr
    · cases hr
    · rename_i st en heq
      have hb := nextRange_some_bounds ops context cursor st en heq
      rcases List.mem_cons.mp hr with hr1 | hr2
      · rw [hr1]
        exact ⟨hb.1, hb.2⟩
      · have := ih (en + 1) (by omega) r hr2
        omega

theorem buildRangesAux_mem_start (ops : List LineOp) (context : Nat) :
    ∀ n cursor, ops.length - cursor ≤ n →
      ∀ r, r ∈ buildRangesAux ops context cursor →
        ∃ q, findFirstChange ops cursor = some q ∧ q ≤ r.1 + context := by
  intro n
  induction n with
  | zero =>
    intro cursor hn r hr
    rw [buildRangesAux_nil ops context cursor
      (findFirstChange_none_of_ge ops cursor (by omega))] at hr
    cases hr
  | succ n ih =>
    intro cursor hn r hr
    rw [buildRangesAux] at hr
    split at hr
    · cases hr
    · rename_i st en heq
      obtain ⟨q, lc, hfc, hs, hq1, hq2, hq3, hq4, _⟩ :=
        nextRange_spec ops context cursor st en heq
      rcases List.mem_cons.mp hr with hr1 | hr2
      · refine ⟨q, hfc, ?_⟩
        rw [hr1, hs]
        omega
      · obtain ⟨q2, hfc2, hq2le⟩ := ih (en + 1) (by omega) r hr2
        obtain ⟨hge, _, _, _⟩ := findFirstChange_spec ops (en + 1) q2 hfc2
        exact ⟨q, hfc, by omega⟩

/-- Precondition under which the hunk loop is (re)entered at `cursor`: the
`context` positions just before `cursor` are all Equal ops. It holds
trivially at the initial cursor `0` and is re-established after each hunk. -/
def ctxPre (ops : List LineOp) (context cursor : Nat) : Prop :=
  ∀ p, p < cursor → cursor ≤ p + context → eqAt ops p = true

theorem ctxPre_zero (ops : List LineOp) (context : Nat) : ctxPre ops context 0 :=
  fun p hp _ => absurd hp (Nat.not_lt_zero p)

theorem buildRangesAux_nonequal_lb (ops : List LineOp) (context : Nat) :
    ∀ n cursor, ops.length - cursor ≤ n → ctxPre ops context cursor →
      ∀ r, r ∈ buildRangesAux ops context cursor →
        ∀ b, eqAt ops b = false → r.1 ≤ b → b ≤ r.2 →
          ∃ q, findFirstChange ops cursor = some q ∧ q ≤ b := by
  intro n
  induction n with
  | zero =>
    intro cursor hn hpre r hr
    rw [buildRangesAux_nil ops context cursor
      (findFirstChange_none_of_ge ops cursor (by omega))] at hr
    cases hr
  | succ n ih =>
    intro cursor hn hpre r hr b hbe hb1 hb2
    rw [buildRangesAux] at hr
    split at hr
    · cases hr
    · rename_i st en heq
      obtain ⟨q, lc, hfc, hs, hc1, hc2, hc3, hc4, hc5, hc6, hc7, hc8, hc9, hc10, hc11⟩ :=
        nextRange_spec ops context cursor st en heq
      rcases List.mem_cons.mp hr with hr1 | hr2
      · refine ⟨q, hfc, ?_⟩
        by_contra hqb
        push_neg at hqb
        rcases Nat.lt_or_ge b cursor with hbc | hbc
        · have : eqAt ops b = true := hpre b hbc (by
            rw [hr1] at hb1
            simp only [hs] at hb1
            omega)
          rw [this] at hbe
          cases hbe
        · have : eqAt ops b = true := hc7 b hbc hqb
          rw [this] at hbe
          cases hbe
      · rcases hc9 with h9 | h9
        · rw [buildRangesAux_nil ops context (en + 1)
            (findFirstChange_none_of_ge ops (en + 1) (by omega))] at hr2
          cases hr2
        · have hpre2 : ctxPre ops context (en + 1) := by
            intro p hp1 hp2
            exact hc8 p (by omega) (by omega)
          obtain ⟨q2, hfc2, hq2b⟩ := ih (en + 1) (by omega) hpre2 r hr2 b hbe hb1 hb2
          obtain ⟨hge, _, _, _⟩ := findFirstChange_spec ops (en + 1) q2 hfc2
          exact ⟨q, hfc, by omega⟩

theorem buildRangesAux_pairwise (ops : List LineOp) (context : Nat) :
    ∀ n cursor, ops.length - cursor ≤ n → ctxPre ops context cursor →
      List.Pairwise (fun r1 r2 : Nat × Nat =>
        r1.1 < r2.1 ∧ r1.2 < r2.2 ∧
        (∀ p, r1.1 ≤ p → p ≤ r1.2 → r2.1 ≤ p → p ≤ r2.2 → eqAt ops p = true) ∧
        (∀ a b, eqAt ops a = false → eqAt ops b = false →
          r1.1 ≤ a → a ≤ r1.2 → r2.1 ≤ b → b ≤ r2.2 → a + context + 2 ≤ b))
        (buildRangesAux ops context cursor) := by
  intro n
  induction n with
  | zero =>
    intro cursor hn hpre
    rw [buildRangesAux_nil ops context cursor
      (findFirstChange_none_of_ge ops cursor (by omega))]
    exact List.Pairwise.nil
  | succ n ih =>
    intro cursor hn hpre
    rw [buildRangesAux]
    split
    · exact List.Pairwise.nil
    · rename_i st en heq
      obtain ⟨q, lc, hfc, hs, hc1, hc2, hc3, hc4, hc5, hc6, hc7, hc8, hc9, hc10, hc11⟩ :=
        nextRange_spec ops context cursor st en heq
      rcases hc9 with h9 | h9
      · rw [buildRangesAux_nil ops context (en + 1)
          (findFirstChange_none_of_ge ops (en + 1) (by omega))]
        exact List.pairwise_singleton _ _
      · have hpre2 : ctxPre ops context (en + 1) := by
          intro p hp1 hp2
          exact hc8 p (by omega) (by omega)
        refine List.Pairwise.cons ?_ (ih (en + 1) (by omega) hpre2)
        intro r2 hr2
        obtain ⟨q2, hfc2, hq2start⟩ :=
          buildRangesAux_mem_start ops context (ops.length - (en + 1)) (en + 1)
            (le_refl _) r2 hr2
        obtain ⟨hge2, hlt2, hne2, hrange2⟩ := findFirstChange_spec ops (en + 1) q2 hfc2
        have hq2gap : en + 2 ≤ q2 := by
          rcases Nat.eq_or_lt_of_le hge2 with hq2e | hq2l
          · rw [← hq2e] at hne2
            rw [h9.2.1] at hne2
            cases hne2
          · omega
        have hr2start : lc + 2 ≤ r2.1 := by omega
        have hr2end := buildRangesAux_mem_bounds ops context
          (ops.length - (en + 1)) (en + 1) (le_refl _) r2 hr2
        refine ⟨by omega, by omega, ?_, ?_⟩
        · intro p hp1 hp2 hp3 hp4
          exact hc8 p (by omega) hp2
        · intro a b hae hbe ha1 ha2 hb1 hb2
          have haLc : a ≤ lc := by
            by_contra hla
            push_neg at hla
            have : eqAt ops a = true := hc8 a hla ha2
            rw [this] at hae
            cases hae
          obtain ⟨q3, hfc3, hq3b⟩ := buildRangesAux_nonequal_lb ops context
            (ops.length - (en + 1)) (en + 1) (le_refl _) hpre2 r2 hr2 b hbe hb1 hb2
          rw [hfc3] at hfc2
          cases hfc2
          omega

theorem buildRangesAux_covers (ops : List LineOp) (context : Nat) :
    ∀ n cursor p, ops.length - cursor ≤ n → cursor ≤ p → p < ops.length →
      eqAt ops p = false →
      ∃ r, r ∈ buildRangesAux ops context cursor ∧ r.1 ≤ p ∧ p ≤ r.2 := by
  intro n
  induction n with
  | zero => intro cursor p hn hp1 hp2 hp3; omega
  | succ n ih =>
    intro cursor p hn hp1 hp2 hp3
    obtain ⟨q0, hfc0, hq0p⟩ := findFirstChange_of_nonequal ops cursor p hp1 hp2 hp3
    cases hnr : nextRange ops context cursor with
    | none =>
      exfalso
      unfold nextRange at hnr
      rw [hfc0] at hnr
      cases hnr
    | some r0 =>
      obtain ⟨q, lc, hfc, hs, hc1, hc2, hc3, hc4, hc5, hc6, hc7, hc8, hc9⟩ :=
        nextRange_spec ops context cursor r0.1 r0.2 (by rw [hnr])
      rw [hfc0] at hfc
      cases hfc
      rw [buildRangesAux]
      split
      · rename_i hnone
        rw [hnone] at hnr
        cases hnr
      · rename_i st en heq
        rw [heq] at hnr
        cases hnr
        rcases le_or_lt p en with hpe | hpe
        · exact ⟨(st, en), List.mem_cons_self _ _, by simp only [hs]; omega, hpe⟩
        · obtain ⟨r, hrm, hr1, hr2⟩ := ih (en + 1) p (by omega) (by omega) hp2 hp3
          exact ⟨r, List.mem_cons_of_mem _ hrm, hr1, hr2⟩

theorem buildRangesAux_separated (ops : List LineOp) (context : Nat) :
    ∀ n cursor, ops.length - cursor ≤ n → ctxPre ops context cursor →
      ∀ x y, y < ops.length → eqAt ops x = false → eqAt ops y = false →
        x < y → (∀ m, x < m → m < y → m < ops.length → eqAt ops m = true) →
        x + context + 1 < y →
        ∀ r, r ∈ buildRangesAux ops context cursor → ¬(r.1 ≤ x ∧ y ≤ r.2) := by
  intro n
  induction n with
  | zero =>
    intro cursor hn hpre x y hy hxe hye hxy hbet hgap r hr
    rw [buildRangesAux_nil ops context cursor
      (findFirstChange_none_of_ge ops cursor (by omega))] at hr
    cases hr
  | succ n ih =>
    intro cursor hn hpre x y hy hxe hye hxy hbet hgap r hr
    rw [buildRangesAux] at hr
    split at hr
    · cases hr
    · rename_i st en heq
      obtain ⟨q, lc, hfc, hs, hc1, hc2, hc3, hc4, hc5, hc6, hc7, hc8, hc9, hc10, hc11⟩ :=
        nextRange_spec ops context cursor st en heq
      rcases List.mem_cons.mp hr with hr1 | hr2
      · rw [hr1]
        rintro ⟨hx1, hy2⟩
        have hylc : y ≤ lc := by
          by_contra hcon
          push_neg at hcon
          rw [hc8 y hcon hy2] at hye
          cases hye
        have hxq : q ≤ x := by
          by_contra hcon
          push_neg at hcon
          rcases Nat.lt_or_ge x cursor with hxc | hxc
          · have : eqAt ops x = true := hpre x hxc (by
              simp only [hs] at hx1
              omega)
            rw [this] at hxe
            cases hxe
          · have : eqAt ops x = true := hc7 x hxc hcon
            rw [this] at hxe
            cases hxe
        obtain ⟨a, ha1, ha2, ha3, ha4⟩ := hc11 y (by omega) hylc hye
        have hax : a ≤ x := by
          by_contra hcon
          push_neg at hcon
          rw [hbet a hcon ha2 (by omega)] at ha3
          cases ha3
        omega
      · rcases hc9 with h9 | h9
        · rw [buildRangesAux_nil ops context (en + 1)
            (findFirstChange_none_of_ge ops (en + 1) (by omega))] at hr2
          cases hr2
        · have hpre2 : ctxPre ops context (en + 1) := by
            intro p hp1 hp2
            exact hc8 p (by omega) (by omega)
          exact ih (en + 1) (by omega) hpre2 x y hy hxe hye hxy hbet hgap r hr2

theorem pairwise_rel_of_mem {α : Type} {R : α → α → Prop} :
    ∀ {l : List α}, List.Pairwise R l → ∀ {a b : α}, a ∈ l → b ∈ l → a ≠ b →
      R a b ∨ R b a := by
  intro l hl
  induction hl with
  | nil => intro a b ha _ _; cases ha
  | cons hx hxs ih =>
    intro a b ha hb hne
    rcases List.mem_cons.mp ha with ha1 | ha2
    · rcases List.mem_cons.mp hb with hb1 | hb2
      · exact absurd (ha1.trans hb1.symm) hne
      · exact Or.inl (ha1 ▸ hx b hb2)
    · rcases List.mem_cons.mp hb with hb1 | hb2
      · exact Or.inr (hb1 ▸ hx a ha2)
      · exact ih ha2 hb2 hne

/-- A hunk as produced by `buildDiffHunks`:
`{ oldStart, oldCount, newStart, newCount, lines }`. -/
structure Hunk where
  oldStart : Nat
  oldCount : Nat
  newStart : Nat
  newCount : Nat
  lines : List String
deriving DecidableEq, Repr

/-- The `-`/`+`/space sigil prepended to each hunk body line. -/
def hunkLineText (op : LineOp) : String :=
  match op.kind with
  | .remove => "-" ++ op.line
  | .add => "+" ++ op.line
  | .equal => " " ++ op.line

/-- The hunk built from the ops slice `operations.slice(hunkStart, hunkEnd + 1)`:
start lines are the first positive old/new line numbers (default 1), counts
are the numbers of non-Add and non-Remove rows. -/
def hunkOfRange (ops : List LineOp) (r : Nat × Nat) : Hunk :=
  let hunkOps := (ops.drop r.1).take (r.2 + 1 - r.1)
  { oldStart := (((hunkOps.find? (fun op => 0 < op.oldLine)).map
      (fun op => op.oldLine)).getD 1)
    oldCount := (hunkOps.filter (fun op => !op.isAdd)).length
    newStart := (((hunkOps.find? (fun op => 0 < op.newLine)).map
      (fun op => op.newLine)).getD 1)
    newCount := (hunkOps.filter (fun op => !op.isRemove)).length
    lines := hunkOps.map hunkLineText }

/-- The index ranges `[hunkStart, hunkEnd]` of the hunks of
`buildDiffHunks(operations, context)`, in emission order. -/
def buildHunkRanges (ops : List LineOp) (context : Nat) : List (Nat × Nat) :=
  buildRangesAux ops context 0

/-- `buildDiffHunks(operations, context)`: one hunk per index range. -/
def buildDiffHunks (ops : List LineOp) (context : Nat) : List Hunk :=
  (buildHunkRanges ops context).map (hunkOfRange ops)

/-- C3 (amended): the hunks of `buildDiffHunks` appear in op order (the index
ranges they slice have strictly increasing starts and ends), and an op
position shared by two hunks is always an Equal op — so no non-Equal op is in
more than one hunk, but adjacent hunks may share Equal context positions
(the claim's strict non-overlap fails, see the counterexample). -/
theorem buildHunks_ordered_shared_equal (ops : List LineOp) (context : Nat) :
    List.Pairwise (fun r1 r2 : Nat × Nat =>
      r1.1 < r2.1 ∧ r1.2 < r2.2 ∧
      ∀ p, r1.1 ≤ p → p ≤ r1.2 → r2.1 ≤ p → p ≤ r2.2 → eqAt ops p = true)
      (buildHunkRanges ops context) ∧
    buildDiffHunks ops context = (buildHunkRanges ops context).map (hunkOfRange ops) := by
  refine ⟨?_, rfl⟩
  have h := buildRangesAux_pairwise ops context (ops.length) 0 (by omega)
    (ctxPre_zero ops context)
  exact h.imp (fun hr => ⟨hr.1, hr.2.1, hr.2.2.1⟩)

/-- C4 (amended): the hunk grouping threshold is `contextSize`, not
`2×contextSize`: two non-Equal ops at distance at most `context + 1` (that
is, separated by at most `context` Equal ops) always land in the same hunk;
non-Equal ops of distinct hunks are more than `context` apart; and two
non-Equal ops with only Equal ops between them at distance more than
`context + 1` (that is, separated by more than `context` Equal ops) never
land in the same hunk — a new hunk starts there (see the counterexample for
the `2×context` refutation). -/
theorem buildHunks_grouping (ops : List LineOp) (context a b : Nat)
    (ha : a < ops.length) (hb : b < ops.length)
    (hae : eqAt ops a = false) (hbe : eqAt ops b = false)
    (hab : a < b) (hgap : b ≤ a + context + 1) :
    (∃ r, r ∈ buildHunkRanges ops context ∧ r.1 ≤ a ∧ b ≤ r.2) ∧
    List.Chain' (fun r1 r2 : Nat × Nat =>
      ∀ x y, eqAt ops x = false → eqAt ops y = false →
        r1.1 ≤ x → x ≤ r1.2 → r2.1 ≤ y → y ≤ r2.2 → x + context < y)
      (buildHunkRanges ops context) ∧
    (∀ x y, y < ops.length → eqAt ops x = false → eqAt ops y = false →
      x < y → (∀ m, x < m → m < y → m < ops.length → eqAt ops m = true) →
      x + context + 1 < y →
      ∀ r, r ∈ buildHunkRanges ops context → ¬(r.1 ≤ x ∧ y ≤ r.2)) := by
  have hpw := buildRangesAux_pairwise ops context (ops.length) 0 (by omega)
    (ctxPre_zero ops context)
  refine ⟨?_, ?_, ?_⟩
  · obtain ⟨r1, hm1, hr11, hr12⟩ := buildRangesAux_covers ops context
      (ops.length) 0 a (by omega) (by omega) ha hae
    obtain ⟨r2, hm2, hr21, hr22⟩ := buildRangesAux_covers ops context
      (ops.length) 0 b (by omega) (by omega) hb hbe
    by_cases hrr : r1 = r2
    · exact ⟨r1, hm1, hr11, by rw [hrr]; exact hr22⟩
    · exfalso
      rcases pairwise_rel_of_mem hpw hm1 hm2 hrr with hrel | hrel
      · have := hrel.2.2.2 a b hae hbe hr11 hr12 hr21 hr22
        omega
      · have := hrel.2.2.2 b a hbe hae hr21 hr22 hr11 hr12
        omega
  · exact (hpw.imp (fun hr x y hx hy hx1 hx2 hy1 hy2 => by
      have := hr.2.2.2 x y hx hy hx1 hx2 hy1 hy2
      omega)).chain'
  · intro x y hy hxe hye hxy hbet hgap2 r hr
    exact buildRangesAux_separated ops context (ops.length) 0 (by omega)
      (ctxPre_zero ops context) x y hy hxe hye hxy hbet hgap2 r hr

/-- Witness for C4 (amended) at a concrete input: two Remove ops separated
by one Equal op, context 1. -/
theorem buildHunks_grouping_witness :
    (∃ r, r ∈ buildHunkRanges
        [⟨OpKind.remove, "a", 1, 0⟩, ⟨OpKind.equal, "b", 2, 1⟩,
          ⟨OpKind.remove, "c", 3, 0⟩] 1 ∧ r.1 ≤ 0 ∧ 2 ≤ r.2) ∧
    List.Chain' (fun r1 r2 : Nat × Nat =>
      ∀ x y, eqAt [⟨OpKind.remove, "a", 1, 0⟩, ⟨OpKind.equal, "b", 2, 1⟩,
          ⟨OpKind.remove, "c", 3, 0⟩] x = false →
        eqAt [⟨OpKind.remove, "a", 1, 0⟩, ⟨OpKind.equal, "b", 2, 1⟩,
          ⟨OpKind.remove, "c", 3, 0⟩] y = false →
        r1.1 ≤ x → x ≤ r1.2 → r2.1 ≤ y → y ≤ r2.2 → x + 1 < y)
      (buildHunkRanges [⟨OpKind.remove, "a", 1, 0⟩, ⟨OpKind.equal, "b", 2, 1⟩,
        ⟨OpKind.remove, "c", 3, 0⟩] 1) ∧
    (∀ x y, y < ([⟨OpKind.remove, "a", 1, 0⟩, ⟨OpKind.equal, "b", 2, 1⟩,
        ⟨OpKind.remove, "c", 3, 0⟩] : List LineOp).length →
      eqAt [⟨OpKind.remove, "a", 1, 0⟩, ⟨OpKind.equal, "b", 2, 1⟩,
        ⟨OpKind.remove, "c", 3, 0⟩] x = false →
      eqAt [⟨OpKind.remove, "a", 1, 0⟩, ⟨OpKind.equal, "b", 2, 1⟩,
        ⟨OpKind.remove, "c", 3, 0⟩] y = false →
      x < y →
      (∀ m, x < m → m < y →
        m < ([⟨OpKind.remove, "a", 1, 0⟩, ⟨OpKind.equal, "b", 2, 1⟩,
          ⟨OpKind.remove, "c", 3, 0⟩] : List LineOp).length →
        eqAt [⟨OpKind.remove, "a", 1, 0⟩, ⟨OpKind.equal, "b", 2, 1⟩,
          ⟨OpKind.remove, "c", 3, 0⟩] m = true) →
      x + 1 + 1 < y →
      ∀ r, r ∈ buildHunkRanges [⟨OpKind.remove, "a", 1, 0⟩,
        ⟨OpKind.equal, "b", 2, 1⟩, ⟨OpKind.remove, "c", 3, 0⟩] 1 →
        ¬(r.1 ≤ x ∧ y ≤ r.2)) :=
  buildHunks_grouping _ 1 0 2 (by decide) (by decide) (by decide) (by decide)
    (by decide) (by decide)

theorem ffc_step_eq (ops : List LineOp) (cursor : Nat) (h : cursor < ops.length)
    (he : eqAt ops cursor = true) :
    findFirstChange ops cursor = findFirstChange ops (cursor + 1) := by
  rw [findFirstChange, dif_pos h, if_pos he]

theorem ffc_step_ne (ops : List LineOp) (cursor : Nat) (h : cursor < ops.length)
    (he : eqAt ops cursor = false) :
    findFirstChange ops cursor = some cursor := by
  rw [findFirstChange, dif_pos h, if_neg (by rw [he]; exact Bool.false_ne_true)]

theorem scan_stop (ops : List LineOp) (context index hunkEnd lastChange : Nat)
    (h : index < ops.length) (he : eqAt ops index = true)
    (hbr : index - lastChange > context) :
    scanHunk ops context index hunkEnd lastChange = (hunkEnd, lastChange) := by
  rw [scanHunk, dif_pos h]
  simp only [he, if_true]
  rw [if_pos hbr]

theorem scan_cont_eq (ops : List LineOp) (context index hunkEnd lastChange : Nat)
    (h : index < ops.length) (he : eqAt ops index = true)
    (hbr : ¬index - lastChange > context) :
    scanHunk ops context index hunkEnd lastChange =
      scanHunk ops context (index + 1) index lastChange := by
  rw [scanHunk, dif_pos h]
  simp only [he, if_true]
  rw [if_neg hbr]

theorem scan_cont_ne (ops : List LineOp) (context index hunkEnd lastChange : Nat)
    (h : index < ops.length) (he : eqAt ops index = false) :
    scanHunk ops context index hunkEnd lastChange =
      scanHunk ops context (index + 1) index index := by
  rw [scanHunk, dif_pos h]
  simp only [he, Bool.false_eq_true, if_false]
  rw [if_neg (by omega)]

theorem scan_out (ops : List LineOp) (context index hunkEnd lastChange : Nat)
    (h : ops.length ≤ index) :
    scanHunk ops context index hunkEnd lastChange = (hunkEnd, lastChange) := by
  rw [scanHunk, dif_neg (by omega)]

theorem nextRange_eval (ops : List LineOp) (context cursor q A B : Nat)
    (hfc : findFirstChange ops cursor = some q)
    (hs : scanHunk ops context (q + 1) q q = (A, B)) :
    nextRange ops context cursor =
      some (min (q - context)
          (if B + context > min (ops.length - 1) A then
            min (ops.length - 1) (B + context) else min (ops.length - 1) A),
        if B + context > min (ops.length - 1) A then
          min (ops.length - 1) (B + context) else min (ops.length - 1) A) := by
  unfold nextRange
  rw [hfc]
  simp only [hs]
  generalize hE : (if B + context > min (ops.length - 1) A then
      min (ops.length - 1) (B + context) else min (ops.length - 1) A) = E
  simp only [Option.some.injEq, Prod.mk.injEq]
  refine ⟨?_, trivial⟩
  rcases le_or_lt (q - context) E with hle | hlt
  · rw [if_neg (by omega), min_eq_left hle]
  · rw [if_pos hlt, min_eq_right (by omega)]

theorem buildRangesAux_cons (ops : List LineOp) (context cursor s e : Nat)
    (h : nextRange ops context cursor = some (s, e)) :
    buildRangesAux ops context cursor =
      (s, e) :: buildRangesAux ops context (e + 1) := by
  rw [buildRangesAux]
  split
  · rename_i hnone
    rw [hnone] at h
    cases h
  · rename_i st en heq
    rw [heq] at h
    cases h
    rfl

/-- The edit script `alignLines(["a","b","c","d","e"], ["A","b","c","d","E"])`
produces: two changes separated by three Equal ops. Used to exhibit
overlapping hunks. -/
def c3cexOps : List LineOp :=
  [⟨OpKind.remove, "a", 1, 0⟩, ⟨OpKind.add, "A", 0, 1⟩, ⟨OpKind.equal, "b", 2, 2⟩,
   ⟨OpKind.equal, "c", 3, 3⟩, ⟨OpKind.equal, "d", 4, 4⟩, ⟨OpKind.remove, "e", 5, 0⟩,
   ⟨OpKind.add, "E", 0, 5⟩]

/-- C3 counterexample: with `context = 2`, `buildDiffHunks` emits the index
ranges `[0,3]` and `[3,6]`, so op position 3 (the Equal line `c`, old line 3)
is included in both hunks: the emitted hunks both contain the row `" c"`, and
their old-line spans `[1..3]` and `[3..5]` overlap. -/
theorem buildHunks_overlap_cex :
    buildHunkRanges c3cexOps 2 = [(0, 3), (3, 6)] ∧
    (buildDiffHunks c3cexOps 2).map Hunk.lines =
      [["-a", "+A", " b", " c"], [" c", " d", "-e", "+E"]] ∧
    (buildDiffHunks c3cexOps 2).map (fun h => (h.oldStart, h.oldCount)) =
      [(1, 3), (3, 3)] := by
  have f0 : findFirstChange c3cexOps 0 = some 0 :=
    ffc_step_ne _ _ (by decide) (by decide)
  have s0a : scanHunk c3cexOps 2 1 0 0 = scanHunk c3cexOps 2 2 1 1 :=
    scan_cont_ne _ _ _ _ _ (by decide) (by decide)
  have s0b : scanHunk c3cexOps 2 2 1 1 = scanHunk c3cexOps 2 3 2 1 :=
    scan_cont_eq _ _ _ _ _ (by decide) (by decide) (by decide)
  have s0c : scanHunk c3cexOps 2 3 2 1 = scanHunk c3cexOps 2 4 3 1 :=
    scan_cont_eq _ _ _ _ _ (by decide) (by decide) (by decide)
  have s0d : scanHunk c3cexOps 2 4 3 1 = (3, 1) :=
    scan_stop _ _ _ _ _ (by decide) (by decide) (by decide)
  have s0 : scanHunk c3cexOps 2 1 0 0 = (3, 1) := by rw [s0a, s0b, s0c, s0d]
  have n0 : nextRange c3cexOps 2 0 = some (0, 3) := by
    rw [nextRange_eval c3cexOps 2 0 0 3 1 f0 s0]
    norm_num [c3cexOps]
  have f4a : findFirstChange c3cexOps 4 = findFirstChange c3cexOps 5 :=
    ffc_step_eq _ _ (by decide) (by decide)
  have f4b : findFirstChange c3cexOps 5 = some 5 :=
    ffc_step_ne _ _ (by decide) (by decide)
  have f4 : findFirstChange c3cexOps 4 = some 5 := by rw [f4a, f4b]
  have s4a : scanHunk c3cexOps 2 6 5 5 = scanHunk c3cexOps 2 7 6 6 :=
    scan_cont_ne _ _ _ _ _ (by decide) (by decide)
  have s4b : scanHunk c3cexOps 2 7 6 6 = (6, 6) := scan_out _ _ _ _ _ (by decide)
  have s4 : scanHunk c3cexOps 2 6 5 5 = (6, 6) := by rw [s4a, s4b]
  have n4 : nextRange c3cexOps 2 4 = some (3, 6) := by
    rw [nextRange_eval c3cexOps 2 4 5 6 6 f4 s4]
    norm_num [c3cexOps]
  have f7 : findFirstChange c3cexOps 7 = none :=
    findFirstChange_none_of_ge _ _ (by decide)
  have hr : buildHunkRanges c3cexOps 2 = [(0, 3), (3, 6)] := by
    rw [buildHunkRanges, buildRangesAux_cons _ _ _ _ _ n0,
      buildRangesAux_cons _ _ _ _ _ n4, buildRangesAux_nil _ _ _ f7]
  refine ⟨hr, ?_, ?_⟩
  · rw [buildDiffHunks, hr]
    decide
  · rw [buildDiffHunks, hr]
    decide

/-- Edit script with two Remove ops separated by three Equal ops. With
`context = 2` the spec's `2×contextSize` rule predicts a single merged hunk;
the code splits them. -/
def c4cexOps : List LineOp :=
  [⟨OpKind.remove, "a", 1, 0⟩, ⟨OpKind.equal, "b", 2, 1⟩, ⟨OpKind.equal, "c", 3, 2⟩,
   ⟨OpKind.equal, "d", 4, 3⟩, ⟨OpKind.remove, "e", 5, 0⟩]

/-- C4 counterexample: the non-Equal ops at positions 0 and 4 are separated by
three Equal ops, which is at most `2×contextSize = 4`, yet `buildDiffHunks`
with `context = 2` puts them in two different hunks (ranges `[0,2]` and
`[2,4]`): no single hunk contains both changes. -/
theorem buildHunks_merge_cex :
    buildHunkRanges c4cexOps 2 = [(0, 2), (2, 4)] ∧
    eqAt c4cexOps 0 = false ∧ eqAt c4cexOps 4 = false ∧
    eqAt c4cexOps 1 = true ∧ eqAt c4cexOps 2 = true ∧ eqAt c4cexOps 3 = true ∧
    ¬∃ r, r ∈ buildHunkRanges c4cexOps 2 ∧ r.1 ≤ 0 ∧ 4 ≤ r.2 := by
  have f0 : findFirstChange c4cexOps 0 = some 0 :=
    ffc_step_ne _ _ (by decide) (by decide)
  have s0a : scanHunk c4cexOps 2 1 0 0 = scanHunk c4cexOps 2 2 1 0 :=
    scan_cont_eq _ _ _ _ _ (by decide) (by decide) (by decide)
  have s0b : scanHunk c4cexOps 2 2 1 0 = scanHunk c4cexOps 2 3 2 0 :=
    scan_cont_eq _ _ _ _ _ (by decide) (by decide) (by decide)
  have s0c : scanHunk c4cexOps 2 3 2 0 = (2, 0) :=
    scan_stop _ _ _ _ _ (by decide) (by decide) (by decide)
  have s0 : scanHunk c4cexOps 2 1 0 0 = (2, 0) := by rw [s0a, s0b, s0c]
  have n0 : nextRange c4cexOps 2 0 = some (0, 2) := by
    rw [nextRange_eval c4cexOps 2 0 0 2 0 f0 s0]
    norm_num [c4cexOps]
  have f3a : findFirstChange c4cexOps 3 = findFirstChange c4cexOps 4 :=
    ffc_step_eq _ _ (by decide) (by decide)
  have f3b : findFirstChange c4cexOps 4 = some 4 :=
    ffc_step_ne _ _ (by decide) (by decide)
  have f3 : findFirstChange c4cexOps 3 = some 4 := by rw [f3a, f3b]
  have s3 : scanHunk c4cexOps 2 5 4 4 = (4, 4) := scan_out _ _ _ _ _ (by decide)
  have n3 : nextRange c4cexOps 2 3 = some (2, 4) := by
    rw [nextRange_eval c4cexOps 2 3 4 4 4 f3 s3]
    norm_num [c4cexOps]
  have f5 : findFirstChange c4cexOps 5 = none :=
    findFirstChange_none_of_ge _ _ (by decide)
  have hr : buildHunkRanges c4cexOps 2 = [(0, 2), (2, 4)] := by
    rw [buildHunkRanges, buildRangesAux_cons _ _ _ _ _ n0,
      buildRangesAux_cons _ _ _ _ _ n3, buildRangesAux_nil _ _ _ f5]
  refine ⟨hr, by decide, by decide, by decide, by decide, by decide, ?_⟩
  rw [hr]
  decide

/-- One inline span `{ text, changed }` of `diffInlineSegments`. -/
structure Span where
  text : String
  changed : Bool
deriving DecidableEq, Repr

/-- The tokenizer of `diffInlineSegments`:
`value.split(/(\\s+)/).filter((part) => part.length > 0)`, i.e. the maximal
runs of whitespace / non-whitespace characters, whitespace kept as tokens. -/
def tokenizeChars : List Char → List (List Char)
  | [] => []
  | c :: rest =>
    match tokenizeChars rest with
    | [] => [[c]]
    | t :: ts =>
      match t with
      | [] => [c] :: [] :: ts
      | d :: ds =>
        if c.isWhitespace = d.isWhitespace then (c :: d :: ds) :: ts
        else [c] :: (d :: ds) :: ts

/-- The word tokens of a line, as strings. -/
def wordTokens (s : String) : List String :=
  (tokenizeChars s.data).map (fun cs => String.mk cs)

/-- Concatenation of a token list (JS `parts.join("")`). -/
def concatStrs (ts : List String) : String :=
  ts.foldr (fun t acc => t ++ acc) ""

/-- Concatenation of the `text` fields of a span list. -/
def concatTexts (spans : List Span) : String :=
  spans.foldr (fun sp acc => sp.text ++ acc) ""

theorem tokenizeChars_join : ∀ cs : List Char, (tokenizeChars cs).flatten = cs := by
  intro cs
  induction cs with
  | nil => rfl
  | cons c rest ih =>
    rw [tokenizeChars]
    cases htok : tokenizeChars rest with
    | nil =>
      rw [htok] at ih
      simp only [List.flatten] at ih ⊢
      simp [← ih]
    | cons t ts =>
      rw [htok] at ih
      cases t with
      | nil =>
        show ([c] :: [] :: ts).flatten = c :: rest
        simp only [List.flatten_cons] at ih ⊢
        simp [ih]
      | cons d ds =>
        by_cases hw : c.isWhitespace = d.isWhitespace
        · show (if c.isWhitespace = d.isWhitespace then (c :: d :: ds) :: ts
            else [c] :: (d :: ds) :: ts).flatten = c :: rest
          rw [if_pos hw]
          simp only [List.flatten_cons] at ih ⊢
          simp [← ih]
        · show (if c.isWhitespace = d.isWhitespace then (c :: d :: ds) :: ts
            else [c] :: (d :: ds) :: ts).flatten = c :: rest
          rw [if_neg hw]
          simp only [List.flatten_cons] at ih ⊢
          simp [← ih]

theorem concatStrs_map_mk : ∀ L : List (List Char),
    concatStrs (L.map (fun cs => String.mk cs)) = String.mk L.flatten := by
  intro L
  induction L with
  | nil => rfl
  | cons t ts ih =>
    simp only [List.map_cons, concatStrs, List.foldr_cons, List.flatten_cons]
    have : concatStrs (ts.map (fun cs => String.mk cs)) = String.mk ts.flatten := ih
    rw [show (ts.map (fun cs => String.mk cs)).foldr (fun t acc => t ++ acc) "" =
      concatStrs (ts.map (fun cs => String.mk cs)) from rfl, this]
    apply String.ext
    simp [String.data_append]

theorem concatStrs_wordTokens (s : String) : concatStrs (wordTokens s) = s := by
  rw [wordTokens, concatStrs_map_mk, tokenizeChars_join]

/-- The forward walk of `diffInlineSegments` over the two token lists,
emitting unchanged spans on both sides at matches and changed spans on one
side otherwise (tie on the table prefers the left token), then flushing both
tails as changed spans. -/
def diffInlineWalk (lt rt : List String) (i j : Nat) : List Span × List Span :=
  if h : i < lt.length ∧ j < rt.length then
    if lt.get ⟨i, h.1⟩ = rt.get ⟨j, h.2⟩ then
      let rest := diffInlineWalk lt rt (i + 1) (j + 1)
      (⟨lt.get ⟨i, h.1⟩, false⟩ :: rest.1, ⟨rt.get ⟨j, h.2⟩, false⟩ :: rest.2)
    else if lcsTable lt rt (i + 1) j ≥ lcsTable lt rt i (j + 1) then
      let rest := diffInlineWalk lt rt (i + 1) j
      (⟨lt.get ⟨i, h.1⟩, true⟩ :: rest.1, rest.2)
    else
      let rest := diffInlineWalk lt rt i (j + 1)
      (rest.1, ⟨rt.get ⟨j, h.2⟩, true⟩ :: rest.2)
  else
    ((lt.drop i).map (fun t => ⟨t, true⟩), (rt.drop j).map (fun t => ⟨t, true⟩))
termination_by (lt.length - i) + (rt.length - j)
decreasing_by
  · omega
  · omega
  · omega

/-- `diffInlineSegments(left, right)`: tokenize both lines and walk the LCS
table from `(0, 0)`. -/
def diffInlineSegments (left right : String) : List Span × List Span :=
  diffInlineWalk (wordTokens left) (wordTokens right) 0 0

theorem concatTexts_map_changed (b : Bool) : ∀ ts : List String,
    concatTexts (ts.map (fun t => ⟨t, b⟩)) = concatStrs ts := by
  intro ts
  induction ts with
  | nil => rfl
  | cons t ts ih =>
    simp only [List.map_cons, concatTexts, concatStrs, List.foldr_cons] at ih ⊢
    rw [ih]

theorem concatStrs_drop_cons (ts : List String) (i : Nat) (h : i < ts.length) :
    concatStrs (ts.drop i) = ts.get ⟨i, h⟩ ++ concatStrs (ts.drop (i + 1)) := by
  rw [List.drop_eq_getElem_cons h]
  simp only [concatStrs, List.foldr_cons, List.get_eq_getElem]

theorem diffInlineWalk_concat (lt rt : List String) (i j : Nat) :
    concatTexts (diffInlineWalk lt rt i j).1 = concatStrs (lt.drop i) ∧
    concatTexts (diffInlineWalk lt rt i j).2 = concatStrs (rt.drop j) := by
  induction i, j using diffInlineWalk.induct lt rt with
  | case1 i j h heq ih =>
    rw [diffInlineWalk, dif_pos h, if_pos heq]
    refine ⟨?_, ?_⟩
    · rw [concatStrs_drop_cons lt i h.1]
      simp only [concatTexts, List.foldr_cons] at ih ⊢
      rw [ih.1]
    · rw [concatStrs_drop_cons rt j h.2]
      simp only [concatTexts, List.foldr_cons] at ih ⊢
      rw [ih.2]
  | case2 i j h heq hge ih =>
    rw [diffInlineWalk, dif_pos h, if_neg heq, if_pos hge]
    refine ⟨?_, ?_⟩
    · rw [concatStrs_drop_cons lt i h.1]
      simp only [concatTexts, List.foldr_cons] at ih ⊢
      rw [ih.1]
    · exact ih.2
  | case3 i j h heq hge ih =>
    rw [diffInlineWalk, dif_pos h, if_neg heq, if_neg hge]
    refine ⟨?_, ?_⟩
    · exact ih.1
    · rw [concatStrs_drop_cons rt j h.2]
      simp only [concatTexts, List.foldr_cons] at ih ⊢
      rw [ih.2]
  | case4 i j h =>
    rw [diffInlineWalk, dif_neg h]
    exact ⟨concatTexts_map_changed true (lt.drop i),
      concatTexts_map_changed true (rt.drop j)⟩

/-- C5: `alignWords` splits each line into whitespace-preserving tokens, and
the concatenation of the `text` fields of the left spans is exactly the old
line, and of the right spans exactly the new line. -/
theorem alignWords_round_trip (oldLine newLine : String) :
    concatTexts (diffInlineSegments oldLine newLine).1 = oldLine ∧
    concatTexts (diffInlineSegments oldLine newLine).2 = newLine := by
  have h := diffInlineWalk_concat (wordTokens oldLine) (wordTokens newLine) 0 0
  rw [diffInlineSegments]
  simp only [List.drop_zero] at h
  rw [h.1, h.2, concatStrs_wordTokens, concatStrs_wordTokens]
  exact ⟨rfl, rfl⟩

/-- Prepend a char to the first chunk of a split (helper for line splitting). -/
def consHead (c : Char) (L : List (List Char)) : List (List Char) :=
  match L with
  | [] => [[c]]
  | t :: ts => (c :: t) :: ts

/-- `text.split(/\r?\n/)` on a char list: split at each `\n`, consuming a
directly preceding `\r` with it; a lone `\r` stays in the line. The empty
text gives one empty line, as in JavaScript. -/
def splitLinesChars : List Char → List (List Char)
  | [] => [[]]
  | '\n' :: rest => [] :: splitLinesChars rest
  | '\r' :: '\n' :: rest => [] :: splitLinesChars rest
  | '\r' :: rest => consHead '\r' (splitLinesChars rest)
  | c :: rest => consHead c (splitLinesChars rest)

/-- Line split at the string level. -/
def splitLines (s : String) : List String :=
  (splitLinesChars s.data).map (fun cs => String.mk cs)

/-- `lines.join("\n")` on char-list lines. -/
def joinLinesChars : List (List Char) → List Char
  | [] => []
  | [l] => l
  | l :: rest => l ++ '\n' :: joinLinesChars rest

/-- JavaScript `String.prototype.trim` modelled with `Char.isWhitespace`. -/
def trimChars (cs : List Char) : List Char :=
  ((cs.dropWhile Char.isWhitespace).reverse.dropWhile Char.isWhitespace).reverse

/-- `"*** Begin Patch"`. -/
def beginPatchLine : List Char := "*** Begin Patch".data

/-- `"*** End Patch"`. -/
def endPatchLine : List Char := "*** End Patch".data

/-- `"*** End of File"`. -/
def endOfFileLine : List Char := "*** End of File".data

/-- `"*** Update File: "`. -/
def updFileMark : List Char := "*** Update File: ".data

/-- `"*** Add File: "`. -/
def addFileMark : List Char := "*** Add File: ".data

/-- `"*** Delete File: "`. -/
def delFileMark : List Char := "*** Delete File: ".data

/-- `"*** Move to: "`. -/
def moveToMark : List Char := "*** Move to: ".data

/-- `line.slice(mark.length)`. -/
def dropMark (line mark : List Char) : List Char := line.drop mark.length

/-- The hunk-body test of the converter:
`line.startsWith("@@") || line.startsWith("+") || line.startsWith("-") || line.startsWith(" ")`. -/
def isHunkBodyLine (cs : List Char) : Bool :=
  ('@' :: '@' :: []).isPrefixOf cs || ('+' :: []).isPrefixOf cs ||
    ('-' :: []).isPrefixOf cs || (' ' :: []).isPrefixOf cs

/-- The mutable state of `convertApplyPatchToUnifiedDiff`: emitted lines, the
indices of the pending `diff --git` / `--- ` / `+++ ` header lines (`none`
models the `-1` sentinel), the current paths, and the body flag. -/
structure PatchState where
  output : List (List Char)
  headerDiffIndex : Option Nat
  headerOldIndex : Option Nat
  headerNewIndex : Option Nat
  oldPath : List Char
  newPath : List Char
  hasDiffRows : Bool
deriving DecidableEq, Repr

/-- `"update" | "add" | "delete"`. -/
inductive FileMode where
  | update : FileMode
  | add : FileMode
  | delete : FileMode
deriving DecidableEq, Repr

/-- The `startFile` closure of the converter: trim the path, ignore empty
paths, otherwise emit the three header lines and record their indices. -/
def startFile (mode : FileMode) (path : List Char) (st : PatchState) : PatchState :=
  let normalized := trimChars path
  if normalized = [] then st
  else
    let oldP := match mode with
      | .add => "/dev/null".data
      | _ => 'a' :: '/' :: normalized
    let newP := match mode with
      | .delete => "/dev/null".data
      | _ => 'b' :: '/' :: normalized
    { output := st.output ++
        ["diff --git ".data ++ oldP ++ ' ' :: newP,
         "--- ".data ++ oldP,
         "+++ ".data ++ newP]
      headerDiffIndex := some st.output.length
      headerOldIndex := some (st.output.length + 1)
      headerNewIndex := some (st.output.length + 2)
      oldPath := oldP
      newPath := newP
      hasDiffRows := st.hasDiffRows }

/-- The `Move to` branch with a non-empty trimmed destination: rewrite the
recorded `diff --git` and `+++` lines in place to target `b/destination`. -/
def applyMove (destination : List Char) (st : PatchState) : PatchState :=
  let newP := 'b' :: '/' :: destination
  let out1 := match st.headerDiffIndex with
    | some i => st.output.set i ("diff --git ".data ++ st.oldPath ++ ' ' :: newP)
    | none => st.output
  let out2 := match st.headerNewIndex with
    | some i => out1.set i ("+++ ".data ++ newP)
    | none => out1
  { st with output := out2, newPath := newP }

/-- One iteration of the converter's line loop, in the source's branch order. -/
def stepLine (st : PatchState) (line : List Char) : PatchState :=
  if line = beginPatchLine ∨ line = endPatchLine ∨ line = endOfFileLine then st
  else if updFileMark.isPrefixOf line then
    startFile .update (dropMark line updFileMark) st
  else if addFileMark.isPrefixOf line then
    startFile .add (dropMark line addFileMark) st
  else if delFileMark.isPrefixOf line then
    startFile .delete (dropMark line delFileMark) st
  else if moveToMark.isPrefixOf line then
    let destination := trimChars (dropMark line moveToMark)
    if destination = [] then st else applyMove destination st
  else if isHunkBodyLine line then
    { st with output := st.output ++ [line], hasDiffRows := true }
  else st

/-- The converter's initial state. -/
def initialPatchState : PatchState :=
  { output := [], headerDiffIndex := none, headerOldIndex := none,
    headerNewIndex := none, oldPath := [], newPath := [], hasDiffRows := false }

/-- `convertApplyPatchToUnifiedDiff(patchText)`: run the line loop, and return
the joined output only when at least one hunk body row was emitted. -/
def convertApplyPatchToUnifiedDiff (patchText : String) : Option String :=
  let st := (splitLinesChars patchText.data).foldl stepLine initialPatchState
  if st.hasDiffRows = true ∧ st.output ≠ [] then
    some (String.mk (joinLinesChars st.output))
  else none

/-- The line scan of `extractApplyPatchFirstPath`: the first
Update/Add/Delete directive returns its trimmed path (or `none` when the
trimmed path is empty — the source's `|| null`). -/
def extractFirstPathLines : List (List Char) → Option (List Char)
  | [] => none
  | l :: ls =>
    if updFileMark.isPrefixOf l then
      (fun t => if t = [] then none else some t) (trimChars (dropMark l updFileMark))
    else if addFileMark.isPrefixOf l then
      (fun t => if t = [] then none else some t) (trimChars (dropMark l addFileMark))
    else if delFileMark.isPrefixOf l then
      (fun t => if t = [] then none else some t) (trimChars (dropMark l delFileMark))
    else extractFirstPathLines ls

/-- `extractApplyPatchFirstPath(patchText)` at the string level. -/
def extractApplyPatchFirstPath (patchText : String) : Option String :=
  (extractFirstPathLines (splitLinesChars patchText.data)).map (fun cs => String.mk cs)

/-- C6: normalizing the Add File patch
`*** Begin Patch\n*** Add File: a.txt\n@@ -0,0 +1,1 @@\n+hello\n*** End Patch`
yields a diff whose lines include `--- /dev/null`, `+++ b/a.txt` and `+hello`,
and the extracted primary file path is `a.txt`. -/
theorem normalizePatch_add_file_example :
    convertApplyPatchToUnifiedDiff
        "*** Begin Patch\n*** Add File: a.txt\n@@ -0,0 +1,1 @@\n+hello\n*** End Patch" =
      some "diff --git /dev/null b/a.txt\n--- /dev/null\n+++ b/a.txt\n@@ -0,0 +1,1 @@\n+hello" ∧
    "--- /dev/null" ∈ splitLines
        "diff --git /dev/null b/a.txt\n--- /dev/null\n+++ b/a.txt\n@@ -0,0 +1,1 @@\n+hello" ∧
    "+++ b/a.txt" ∈ splitLines
        "diff --git /dev/null b/a.txt\n--- /dev/null\n+++ b/a.txt\n@@ -0,0 +1,1 @@\n+hello" ∧
    "+hello" ∈ splitLines
        "diff --git /dev/null b/a.txt\n--- /dev/null\n+++ b/a.txt\n@@ -0,0 +1,1 @@\n+hello" ∧
    extractApplyPatchFirstPath
        "*** Begin Patch\n*** Add File: a.txt\n@@ -0,0 +1,1 @@\n+hello\n*** End Patch" =
      some "a.txt" := by
  refine ⟨?_, ?_, ?_, ?_, ?_⟩ <;> decide

theorem bodyLine_head (c : Char) (t : List Char) (h : isHunkBodyLine (c :: t) = true) :
    c = '@' ∨ c = '+' ∨ c = '-' ∨ c = ' ' := by
  simp only [isHunkBodyLine, List.isPrefixOf, Bool.or_eq_true, Bool.and_eq_true,
    beq_iff_eq] at h
  rcases h with ((⟨h1, _⟩ | ⟨h1, _⟩) | ⟨h1, _⟩) | ⟨h1, _⟩
  · exact Or.inl h1.symm
  · exact Or.inr (Or.inl h1.symm)
  · exact Or.inr (Or.inr (Or.inl h1.symm))
  · exact Or.inr (Or.inr (Or.inr h1.symm))

theorem star_not_body (t : List Char) : isHunkBodyLine ('*' :: t) = false := by
  simp [isHunkBodyLine, List.isPrefixOf]

theorem head_star_not_body (l : List Char) (h : l.head? = some '*') :
    isHunkBodyLine l = false := by
  cases l with
  | nil => cases h
  | cons c t =>
    simp only [List.head?_cons, Option.some.injEq] at h
    rw [h]
    exact star_not_body t

theorem starts_star_head (mark : List Char) (rest : List Char) (l : List Char)
    (hmark : mark = '*' :: rest) (h : mark.isPrefixOf l = true) :
    l.head? = some '*' := by
  subst hmark
  cases l with
  | nil => simp [List.isPrefixOf] at h
  | cons b bs =>
    simp only [List.isPrefixOf, Bool.and_eq_true, beq_iff_eq] at h
    rw [← h.1]
    rfl

theorem prefix_of_isPrefixOf (p q l : List Char) (hpq : p.isPrefixOf q = true)
    (hql : q.isPrefixOf l = true) : p.isPrefixOf l = true := by
  rw [List.isPrefixOf_iff_prefix] at hpq hql ⊢
  exact hpq.trans hql

theorem startFile_flag (mode : FileMode) (path : List Char) (st : PatchState) :
    (startFile mode path st).hasDiffRows = st.hasDiffRows := by
  unfold startFile
  by_cases h : trimChars path = []
  · rw [if_pos h]
  · rw [if_neg h]

theorem applyMove_flag (destination : List Char) (st : PatchState) :
    (applyMove destination st).hasDiffRows = st.hasDiffRows := rfl

theorem stepLine_flag (st : PatchState) (l : List Char) :
    (stepLine st l).hasDiffRows = (st.hasDiffRows || isHunkBodyLine l) := by
  unfold stepLine
  by_cases h1 : l = beginPatchLine ∨ l = endPatchLine ∨ l = endOfFileLine
  · rw [if_pos h1]
    have hb : isHunkBodyLine l = false := by
      rcases h1 with h | h | h <;> rw [h] <;> decide
    rw [hb, Bool.or_false]
  · rw [if_neg h1]
    by_cases h2 : updFileMark.isPrefixOf l = true
    · rw [if_pos h2, startFile_flag,
        head_star_not_body l (starts_star_head updFileMark ("** Update File: ".data) l (by decide) h2),
        Bool.or_false]
    · rw [if_neg h2]
      by_cases h3 : addFileMark.isPrefixOf l = true
      · rw [if_pos h3, startFile_flag,
          head_star_not_body l (starts_star_head addFileMark ("** Add File: ".data) l (by decide) h3),
          Bool.or_false]
      · rw [if_neg h3]
        by_cases h4 : delFileMark.isPrefixOf l = true
        · rw [if_pos h4, startFile_flag,
            head_star_not_body l (starts_star_head delFileMark ("** Delete File: ".data) l (by decide) h4),
            Bool.or_false]
        · rw [if_neg h4]
          by_cases h5 : moveToMark.isPrefixOf l = true
          · rw [if_pos h5,
              head_star_not_body l (starts_star_head moveToMark ("** Move to: ".data) l (by decide) h5),
              Bool.or_false]
            by_cases h6 : trimChars (dropMark l moveToMark) = []
            · rw [if_pos h6]
            · rw [if_neg h6, applyMove_flag]
          · rw [if_neg h5]
            by_cases h7 : isHunkBodyLine l = true
            · rw [if_pos h7, h7, Bool.or_true]
            · rw [if_neg h7, Bool.eq_false_iff.mpr h7, Bool.or_false]

theorem foldl_stepLine_flag (ls : List (List Char)) :
    ∀ st : PatchState, (ls.foldl stepLine st).hasDiffRows =
      (st.hasDiffRows || ls.any (fun l => isHunkBodyLine l)) := by
  induction ls with
  | nil => intro st; simp
  | cons l ls ih =>
    intro st
    rw [List.foldl_cons, ih, stepLine_flag]
    simp [Bool.or_assoc]

theorem startFile_out_ne (mode : FileMode) (path : List Char) (st : PatchState)
    (h : st.output ≠ []) : (startFile mode path st).output ≠ [] := by
  unfold startFile
  by_cases hp : trimChars path = []
  · rw [if_pos hp]; exact h
  · rw [if_neg hp]
    simp

theorem applyMove_out_len (destination : List Char) (st : PatchState) :
    (applyMove destination st).output.length = st.output.length := by
  unfold applyMove
  cases st.headerDiffIndex <;> cases st.headerNewIndex <;> simp

theorem stepLine_inv (st : PatchState) (l : List Char)
    (h : st.hasDiffRows = true → st.output ≠ []) :
    (stepLine st l).hasDiffRows = true → (stepLine st l).output ≠ [] := by
  intro hflag
  unfold stepLine at hflag ⊢
  by_cases h1 : l = beginPatchLine ∨ l = endPatchLine ∨ l = endOfFileLine
  · rw [if_pos h1] at hflag ⊢; exact h hflag
  · rw [if_neg h1] at hflag ⊢
    by_cases h2 : updFileMark.isPrefixOf l = true
    · rw [if_pos h2] at hflag ⊢
      exact startFile_out_ne _ _ _ (h (by rw [← startFile_flag FileMode.update (dropMark l updFileMark) st]; exact hflag))
    · rw [if_neg h2] at hflag ⊢
      by_cases h3 : addFileMark.isPrefixOf l = true
      · rw [if_pos h3] at hflag ⊢
        exact startFile_out_ne _ _ _ (h (by rw [← startFile_flag FileMode.add (dropMark l addFileMark) st]; exact hflag))
      · rw [if_neg h3] at hflag ⊢
        by_cases h4 : delFileMark.isPrefixOf l = true
        · rw [if_pos h4] at hflag ⊢
          exact startFile_out_ne _ _ _ (h (by rw [← startFile_flag FileMode.delete (dropMark l delFileMark) st]; exact hflag))
        · rw [if_neg h4] at hflag ⊢
          by_cases h5 : moveToMark.isPrefixOf l = true
          · rw [if_pos h5] at hflag ⊢
            by_cases h6 : trimChars (dropMark l moveToMark) = []
            · rw [if_pos h6] at hflag ⊢; exact h hflag
            · rw [if_neg h6] at hflag ⊢
              have hlen := applyMove_out_len (trimChars (dropMark l moveToMark)) st
              have hne := h (by rw [← applyMove_flag (trimChars (dropMark l moveToMark)) st]; exact hflag)
              intro hc
              rw [hc] at hlen
              simp at hlen
              exact hne (List.length_eq_zero.mp hlen.symm)
          · rw [if_neg h5] at hflag ⊢
            by_cases h7 : isHunkBodyLine l = true
            · rw [if_pos h7] at hflag ⊢
              simp
            · rw [if_neg h7] at hflag ⊢; exact h hflag

theorem foldl_stepLine_inv (ls : List (List Char)) :
    ∀ st : PatchState, (st.hasDiffRows = true → st.output ≠ []) →
      ((ls.foldl stepLine st).hasDiffRows = true → (ls.foldl stepLine st).output ≠ []) := by
  induction ls with
  | nil => intro st h; exact h
  | cons l ls ih =>
    intro st h
    rw [List.foldl_cons]
    exact ih (stepLine st l) (stepLine_inv st l h)

theorem extractFirstPathLines_none (ls : List (List Char))
    (h : ∀ l ∈ ls, ("*** ".data).isPrefixOf l = false) :
    extractFirstPathLines ls = none := by
  induction ls with
  | nil => rfl
  | cons l ls ih =>
    have hstar : ("*** ".data).isPrefixOf l = false := h l (List.mem_cons_self _ _)
    rw [extractFirstPathLines]
    rw [if_neg (fun hc => by
      rw [prefix_of_isPrefixOf ("*** ".data) updFileMark l (by decide) hc] at hstar
      cases hstar)]
    rw [if_neg (fun hc => by
      rw [prefix_of_isPrefixOf ("*** ".data) addFileMark l (by decide) hc] at hstar
      cases hstar)]
    rw [if_neg (fun hc => by
      rw [prefix_of_isPrefixOf ("*** ".data) delFileMark l (by decide) hc] at hstar
      cases hstar)]
    exact ih (fun x hx => h x (List.mem_cons_of_mem _ hx))

/-- C7: `normalizePatch` is total, and its diff output is `none` exactly when
no line of the input is a hunk-body line (starting with `@@`, `+`, `-`, or a
space); on plain text with no `*** ` directive lines and no body-shaped lines
both the diff text and the primary path are `none`. -/
theorem normalizePatch_none_characterization (s : String) :
    (convertApplyPatchToUnifiedDiff s = none ↔
      ∀ l ∈ splitLinesChars s.data, isHunkBodyLine l = false) ∧
    ((∀ l ∈ splitLinesChars s.data, ("*** ".data).isPrefixOf l = false ∧
        isHunkBodyLine l = false) →
      convertApplyPatchToUnifiedDiff s = none ∧
        extractApplyPatchFirstPath s = none) := by
  have hflag := foldl_stepLine_flag (splitLinesChars s.data) initialPatchState
  rw [show initialPatchState.hasDiffRows = false from rfl, Bool.false_or] at hflag
  have hinv := foldl_stepLine_inv (splitLinesChars s.data) initialPatchState
    (fun hc => by cases hc)
  have hmain : convertApplyPatchToUnifiedDiff s = none ↔
      ∀ l ∈ splitLinesChars s.data, isHunkBodyLine l = false := by
    unfold convertApplyPatchToUnifiedDiff
    constructor
    · intro hnone l hl
      by_contra hb
      rw [Bool.not_eq_false] at hb
      have hany : (splitLinesChars s.data).any (fun l => isHunkBodyLine l) = true :=
        List.any_eq_true.mpr ⟨l, hl, hb⟩
      rw [if_pos ⟨by rw [hflag]; exact hany, hinv (by rw [hflag]; exact hany)⟩] at hnone
      cases hnone
    · intro hall
      rw [if_neg]
      intro ⟨hf, _⟩
      rw [hflag, List.any_eq_true] at hf
      obtain ⟨l, hl, hb⟩ := hf
      rw [hall l hl] at hb
      cases hb
  refine ⟨hmain, fun hplain => ⟨hmain.mpr (fun l hl => (hplain l hl).2), ?_⟩⟩
  unfold extractApplyPatchFirstPath
  rw [extractFirstPathLines_none (splitLinesChars s.data)
    (fun l hl => (hplain l hl).1)]
  rfl

/-- Witness for C7 at a concrete plain text with no markers. -/
theorem normalizePatch_none_characterization_witness :
    convertApplyPatchToUnifiedDiff "plain text\nno markers here" = none ∧
      extractApplyPatchFirstPath "plain text\nno markers here" = none :=
  (normalizePatch_none_characterization "plain text\nno markers here").2 (by decide)

theorem ne_of_take_append (p q : List Char) (n : Nat) (hn : n ≤ p.length)
    (hne : p.take n ≠ q.take n) : ∀ d, p ++ d ≠ q := by
  intro d h
  rw [← h, List.take_append_of_le_length hn] at hne
  exact hne rfl

theorem not_isPrefixOf_append (p q : List Char) (n : Nat) (hnp : n ≤ p.length)
    (hnq : n ≤ q.length) (hne : p.take n ≠ q.take n) (d : List Char) :
    p.isPrefixOf (q ++ d) = false := by
  by_contra hc
  rw [Bool.not_eq_false, List.isPrefixOf_iff_prefix] at hc
  obtain ⟨t, ht⟩ := hc
  apply hne
  have hc2 := congrArg (List.take n) ht
  rw [List.take_append_of_le_length hnp, List.take_append_of_le_length hnq] at hc2
  exact hc2

theorem step_body (st : PatchState) (l : List Char) (hl : isHunkBodyLine l = true) :
    stepLine st l = { st with output := st.output ++ [l], hasDiffRows := true } := by
  have hstar : ∀ mark rest, mark = '*' :: rest → mark.isPrefixOf l = false := by
    intro mark rest hm
    by_contra hc
    rw [Bool.not_eq_false] at hc
    rw [head_star_not_body l (starts_star_head mark rest l hm hc)] at hl
    cases hl
  have hne1 : ¬(l = beginPatchLine ∨ l = endPatchLine ∨ l = endOfFileLine) := by
    rintro (h | h | h) <;> (rw [h] at hl; revert hl; decide)
  rw [stepLine, if_neg hne1,
    if_neg (by rw [hstar updFileMark ("** Update File: ".data) (by decide)]; exact Bool.false_ne_true),
    if_neg (by rw [hstar addFileMark ("** Add File: ".data) (by decide)]; exact Bool.false_ne_true),
    if_neg (by rw [hstar delFileMark ("** Delete File: ".data) (by decide)]; exact Bool.false_ne_true),
    if_neg (by rw [hstar moveToMark ("** Move to: ".data) (by decide)]; exact Bool.false_ne_true),
    if_pos hl]

theorem foldl_body (body : List (List Char)) :
    ∀ st : PatchState, (∀ l ∈ body, isHunkBodyLine l = true) →
      body.foldl stepLine st =
        { st with
            output := st.output ++ body
            hasDiffRows := st.hasDiffRows || !body.isEmpty } := by
  induction body with
  | nil =>
    intro st h
    simp
  | cons l body ih =>
    intro st h
    rw [List.foldl_cons, step_body st l (h l (List.mem_cons_self _ _)),
      ih _ (fun x hx => h x (List.mem_cons_of_mem _ hx))]
    simp [List.append_assoc]

theorem startFile_output (mode : FileMode) (p : List Char) (st : PatchState)
    (hp : trimChars p ≠ []) :
    (startFile mode p st).output = st.output ++
      ["diff --git ".data ++ (startFile mode p st).oldPath ++ ' ' ::
          (startFile mode p st).newPath,
        "--- ".data ++ (startFile mode p st).oldPath,
        "+++ ".data ++ (startFile mode p st).newPath] ∧
    (startFile mode p st).headerDiffIndex = some st.output.length ∧
    (startFile mode p st).headerOldIndex = some (st.output.length + 1) ∧
    (startFile mode p st).headerNewIndex = some (st.output.length + 2) := by
  unfold startFile
  rw [if_neg hp]
  exact ⟨rfl, rfl, rfl, rfl⟩

theorem stepLine_move (st : PatchState) (d : List Char) (hd : trimChars d ≠ []) :
    stepLine st (moveToMark ++ d) = applyMove (trimChars d) st := by
  rw [stepLine]
  rw [if_neg (by
    rintro (h | h | h)
    · exact ne_of_take_append moveToMark beginPatchLine 5 (by decide) (by decide) d h
    · exact ne_of_take_append moveToMark endPatchLine 5 (by decide) (by decide) d h
    · exact ne_of_take_append moveToMark endOfFileLine 5 (by decide) (by decide) d h)]
  rw [if_neg (by
    rw [not_isPrefixOf_append updFileMark moveToMark 5 (by decide) (by decide) (by decide) d]
    exact Bool.false_ne_true)]
  rw [if_neg (by
    rw [not_isPrefixOf_append addFileMark moveToMark 5 (by decide) (by decide) (by decide) d]
    exact Bool.false_ne_true)]
  rw [if_neg (by
    rw [not_isPrefixOf_append delFileMark moveToMark 5 (by decide) (by decide) (by decide) d]
    exact Bool.false_ne_true)]
  rw [if_pos (by
    rw [List.isPrefixOf_iff_prefix]
    exact List.prefix_append moveToMark d)]
  rw [show dropMark (moveToMark ++ d) moveToMark = d from List.drop_left moveToMark d]
  rw [if_neg hd]

/-- C8: after an Update/Add file header (and any number of emitted hunk-body
lines), processing `*** Move to: D` with a non-empty destination rewrites the
already-emitted `diff --git` line (index n) and `+++` line (index n+2) in
place to target `b/D`, while the `--- ` line (index n+1) and every other
already-emitted line, including all hunk body lines, are unchanged. -/
theorem normalizePatch_move_rewrites (st : PatchState) (mode : FileMode)
    (p d : List Char) (body : List (List Char))
    (hmode : mode = FileMode.update ∨ mode = FileMode.add)
    (hp : trimChars p ≠ []) (hd : trimChars d ≠ [])
    (hbody : ∀ l ∈ body, isHunkBodyLine l = true) :
    (body.foldl stepLine (startFile mode p st)).output =
        (startFile mode p st).output ++ body ∧
    (stepLine (body.foldl stepLine (startFile mode p st)) (moveToMark ++ d)).output =
      ((body.foldl stepLine (startFile mode p st)).output.set st.output.length
          ("diff --git ".data ++ (startFile mode p st).oldPath ++ ' ' ::
            'b' :: '/' :: trimChars d)).set (st.output.length + 2)
          ("+++ ".data ++ 'b' :: '/' :: trimChars d) ∧
    (stepLine (body.foldl stepLine (startFile mode p st)) (moveToMark ++ d)).output[st.output.length + 1]? =
      some ("--- ".data ++ (startFile mode p st).oldPath) ∧
    (∀ k, k ≠ st.output.length → k ≠ st.output.length + 2 →
      (stepLine (body.foldl stepLine (startFile mode p st)) (moveToMark ++ d)).output[k]? =
        (body.foldl stepLine (startFile mode p st)).output[k]?) := by
  obtain ⟨ho, hdi, hoi, hni⟩ := startFile_output mode p st hp
  set st1 := startFile mode p st with hst1
  have hfold := foldl_body body st1 hbody
  have hout2 : (body.foldl stepLine st1).output = st1.output ++ body := by
    rw [hfold]
  have hdi2 : (body.foldl stepLine st1).headerDiffIndex = some st.output.length := by
    rw [hfold]; exact hdi
  have hni2 : (body.foldl stepLine st1).headerNewIndex = some (st.output.length + 2) := by
    rw [hfold]; exact hni
  have hop2 : (body.foldl stepLine st1).oldPath = st1.oldPath := by
    rw [hfold]
  have hmove := stepLine_move (body.foldl stepLine st1) d hd
  have hmoveout : (stepLine (body.foldl stepLine st1) (moveToMark ++ d)).output =
      ((body.foldl stepLine st1).output.set st.output.length
        ("diff --git ".data ++ st1.oldPath ++ ' ' :: 'b' :: '/' :: trimChars d)).set
        (st.output.length + 2) ("+++ ".data ++ 'b' :: '/' :: trimChars d) := by
    rw [hmove]
    unfold applyMove
    rw [hdi2, hni2, hop2]
  refine ⟨hout2, hmoveout, ?_, ?_⟩
  · rw [hmoveout]
    rw [List.getElem?_set_ne (by omega), List.getElem?_set_ne (by omega)]
    rw [hout2, ho]
    rw [List.append_assoc]
    rw [List.getElem?_append_right (by omega)]
    simp
  · intro k hk1 hk2
    rw [hmoveout, List.getElem?_set_ne (Ne.symm hk2), List.getElem?_set_ne (Ne.symm hk1)]

/-- Witness for C8 at a concrete state: an Add File header for `a.txt`, one
body line `+x`, then `*** Move to: b.txt`. -/
theorem normalizePatch_move_rewrites_witness :
    (["+x".data].foldl stepLine
        (startFile FileMode.add "a.txt".data initialPatchState)).output =
      (startFile FileMode.add "a.txt".data initialPatchState).output ++ ["+x".data] ∧
    (stepLine (["+x".data].foldl stepLine
        (startFile FileMode.add "a.txt".data initialPatchState))
        (moveToMark ++ "b.txt".data)).output =
      ((["+x".data].foldl stepLine
          (startFile FileMode.add "a.txt".data initialPatchState)).output.set
          initialPatchState.output.length
          ("diff --git ".data ++
            (startFile FileMode.add "a.txt".data initialPatchState).oldPath ++ ' ' ::
            'b' :: '/' :: trimChars "b.txt".data)).set
          (initialPatchState.output.length + 2)
          ("+++ ".data ++ 'b' :: '/' :: trimChars "b.txt".data) ∧
    (stepLine (["+x".data].foldl stepLine
        (startFile FileMode.add "a.txt".data initialPatchState))
        (moveToMark ++ "b.txt".data)).output.get?
        (initialPatchState.output.length + 1) =
      some ("--- ".data ++
        (startFile FileMode.add "a.txt".data initialPatchState).oldPath) ∧
    (∀ k, k ≠ initialPatchState.output.length →
      k ≠ initialPatchState.output.length + 2 →
      (stepLine (["+x".data].foldl stepLine
          (startFile FileMode.add "a.txt".data initialPatchState))
          (moveToMark ++ "b.txt".data)).output[k]? =
        (["+x".data].foldl stepLine
          (startFile FileMode.add "a.txt".data initialPatchState)).output[k]?) :=
  normalizePatch_move_rewrites initialPatchState FileMode.add "a.txt".data
    "b.txt".data ["+x".data] (Or.inr rfl) (by decide) (by decide) (by decide)

/-- Parsed JSON values (the result of a successful `JSON.parse`). -/
inductive Json where
  | null : Json
  | bool : Bool → Json
  | num : Int → Json
  | str : String → Json
  | arr : List Json → Json
  | obj : List (String × Json) → Json

/-- Member access `record[key]` on a parsed JSON object (absent keys give
`undefined`, modelled as `none`). -/
def getField (fields : List (String × Json)) (k : String) : Option Json :=
  (fields.find? (fun kv => kv.1 = k)).map (fun kv => kv.2)

/-- `asString(value)`: the value if it is a string (empty allowed), else null. -/
def asString (v : Option Json) : Option String :=
  match v with
  | some (.str s) => some s
  | _ => none

/-- `asNonEmptyString(value)`: the trimmed value if it is a string with
non-empty trim, else null. -/
def asNonEmptyString (v : Option Json) : Option String :=
  match v with
  | some (.str s) =>
    let trimmed := String.mk (trimChars s.data)
    if trimmed = "" then none else some trimmed
  | _ => none

/-- `asObject(value)`: the fields if the value is a (non-array) object. -/
def asObject (v : Option Json) : Option (List (String × Json)) :=
  match v with
  | some (.obj fields) => some fields
  | _ => none

/-- The four resolved fields of `parseToolEditPayload` (the alias-chain part
of the function; the later apply-patch diff fallback is modelled by
`convertApplyPatchToUnifiedDiff`). -/
structure ToolEditFields where
  filePath : Option String
  oldText : Option String
  newText : Option String
  diff : Option String

/-- The field resolution of `parseToolEditPayload` over a successfully parsed
record: `payload = input ?? args ?? parsed`, then each field is a `??` chain
over its aliases (`asNonEmptyString` for `filePath`/`diff`, `asString` for
`oldText`/`newText`). -/
def parseToolEditFields (parsed : List (String × Json)) : ToolEditFields :=
  let input := asObject (getField parsed "input")
  let args := asObject (getField parsed "args")
  let payload := (input <|> args).getD parsed
  { filePath :=
      asNonEmptyString (getField payload "file_path") <|>
      asNonEmptyString (getField payload "path") <|>
      asNonEmptyString (getField payload "file") <|>
      asNonEmptyString (getField parsed "file_path") <|>
      asNonEmptyString (getField parsed "path")
    oldText :=
      asString (getField payload "old_string") <|>
      asString (getField payload "oldText") <|>
      asString (getField payload "before") <|>
      asString (getField parsed "old_string")
    newText :=
      asString (getField payload "new_string") <|>
      asString (getField payload "newText") <|>
      asString (getField payload "after") <|>
      asString (getField payload "content") <|>
      asString (getField payload "text") <|>
      asString (getField payload "write_content") <|>
      asString (getField payload "new_content") <|>
      asString (getField parsed "new_string")
    diff :=
      asNonEmptyString (getField payload "diff") <|>
      asNonEmptyString (getField payload "patch") <|>
      asNonEmptyString (getField parsed "diff") <|>
      asNonEmptyString (getField parsed "patch") }

/-- An alias source: the object to read from and the key to read. Each field
of `parseToolEditPayload` tries an ordered list of these. -/
def newTextSources (parsed payload : List (String × Json)) :
    List (List (String × Json) × String) :=
  [(payload, "new_string"), (payload, "newText"), (payload, "after"),
   (payload, "content"), (payload, "text"), (payload, "write_content"),
   (payload, "new_content"), (parsed, "new_string")]

/-- The `oldText` alias sources, in source order. -/
def oldTextSources (parsed payload : List (String × Json)) :
    List (List (String × Json) × String) :=
  [(payload, "old_string"), (payload, "oldText"), (payload, "before"),
   (parsed, "old_string")]

/-- The `filePath` alias sources, in source order. -/
def filePathSources (parsed payload : List (String × Json)) :
    List (List (String × Json) × String) :=
  [(payload, "file_path"), (payload, "path"), (payload, "file"),
   (parsed, "file_path"), (parsed, "path")]

/-- The `diff` alias sources, in source order. -/
def diffSources (parsed payload : List (String × Json)) :
    List (List (String × Json) × String) :=
  [(payload, "diff"), (payload, "patch"), (parsed, "diff"), (parsed, "patch")]

/-- First source whose value is a string (the `asString` chains). -/
def firstStringOver : List (List (String × Json) × String) → Option String
  | [] => none
  | src :: rest => asString (getField src.1 src.2) <|> firstStringOver rest

/-- First source whose value is a string with non-empty trim (the
`asNonEmptyString` chains). -/
def firstTrimmedOver : List (List (String × Json) × String) → Option String
  | [] => none
  | src :: rest => asNonEmptyString (getField src.1 src.2) <|> firstTrimmedOver rest

theorem firstStringOver_spec :
    ∀ srcs : List (List (String × Json) × String), ∀ i s, (hi : i < srcs.length) →
      (∀ j, (hj : j < srcs.length) → j < i →
        asString (getField (srcs.get ⟨j, hj⟩).1 (srcs.get ⟨j, hj⟩).2) = none) →
      asString (getField (srcs.get ⟨i, hi⟩).1 (srcs.get ⟨i, hi⟩).2) = some s →
      firstStringOver srcs = some s := by
  intro srcs
  induction srcs with
  | nil => intro i s hi; exact absurd hi (by simp)
  | cons src rest ih =>
    intro i s hi hprev hcur
    cases i with
    | zero =>
      rw [firstStringOver]
      simp only [List.get] at hcur
      rw [hcur]
      rfl
    | succ i =>
      rw [firstStringOver]
      have h0 : asString (getField src.1 src.2) = none := by
        have := hprev 0 (by omega) (by omega)
        simpa using this
      rw [h0, Option.none_orElse]
      exact ih i s (by simpa using hi)
        (fun j hj hji => by
          have := hprev (j + 1) (by omega) (by omega)
          simpa using this)
        (by simpa using hcur)

theorem firstTrimmedOver_spec :
    ∀ srcs : List (List (String × Json) × String), ∀ i s, (hi : i < srcs.length) →
      (∀ j, (hj : j < srcs.length) → j < i →
        asNonEmptyString (getField (srcs.get ⟨j, hj⟩).1 (srcs.get ⟨j, hj⟩).2) = none) →
      getField (srcs.get ⟨i, hi⟩).1 (srcs.get ⟨i, hi⟩).2 = some (Json.str s) →
      String.mk (trimChars s.data) ≠ "" →
      firstTrimmedOver srcs = some (String.mk (trimChars s.data)) := by
  intro srcs
  induction srcs with
  | nil => intro i s hi; exact absurd hi (by simp)
  | cons src rest ih =>
    intro i s hi hprev hcur hne
    cases i with
    | zero =>
      rw [firstTrimmedOver]
      simp only [List.get] at hcur
      rw [hcur]
      simp only [asNonEmptyString, if_neg hne]
      rfl
    | succ i =>
      rw [firstTrimmedOver]
      have h0 : asNonEmptyString (getField src.1 src.2) = none := by
        have := hprev 0 (by omega) (by omega)
        simpa using this
      rw [h0, Option.none_orElse]
      exact ih i s (by simpa using hi)
        (fun j hj hji => by
          have := hprev (j + 1) (by omega) (by omega)
          simpa using this)
        (by simpa using hcur) hne

theorem newText_eq_chain (parsed payload : List (String × Json))
    (hpay : payload = (asObject (getField parsed "input") <|>
        asObject (getField parsed "args")).getD parsed) :
    (parseToolEditFields parsed).newText =
      firstStringOver (newTextSources parsed payload) := by
  subst hpay
  simp only [parseToolEditFields, firstStringOver, newTextSources]
  rw [Option.orElse_none]

theorem oldText_eq_chain (parsed payload : List (String × Json))
    (hpay : payload = (asObject (getField parsed "input") <|>
        asObject (getField parsed "args")).getD parsed) :
    (parseToolEditFields parsed).oldText =
      firstStringOver (oldTextSources parsed payload) := by
  subst hpay
  simp only [parseToolEditFields, firstStringOver, oldTextSources]
  rw [Option.orElse_none]

theorem filePath_eq_chain (parsed payload : List (String × Json))
    (hpay : payload = (asObject (getField parsed "input") <|>
        asObject (getField parsed "args")).getD parsed) :
    (parseToolEditFields parsed).filePath =
      firstTrimmedOver (filePathSources parsed payload) := by
  subst hpay
  simp only [parseToolEditFields, firstTrimmedOver, filePathSources]
  rw [Option.orElse_none]

theorem diff_eq_chain (parsed payload : List (String × Json))
    (hpay : payload = (asObject (getField parsed "input") <|>
        asObject (getField parsed "args")).getD parsed) :
    (parseToolEditFields parsed).diff =
      firstTrimmedOver (diffSources parsed payload) := by
  subst hpay
  simp only [parseToolEditFields, firstTrimmedOver, diffSources]
  rw [Option.orElse_none]

/-- C9 (amended): over the payload object selected by `input ?? args ??
parsed`, every field is resolved by trying its alias sources in order:
`oldText` and `newText` take the first alias bound to any string value —
including the empty string, skipping only non-string or missing values —
while `filePath` and `diff` take the first alias bound to a string with
non-empty trim, returning it trimmed (strings trimming to empty, and
non-strings, are skipped). -/
theorem toolPayload_alias_resolution (parsed payload : List (String × Json))
    (hpay : payload = (asObject (getField parsed "input") <|>
        asObject (getField parsed "args")).getD parsed) :
    (∀ i s, (hi : i < (newTextSources parsed payload).length) →
      (∀ j, (hj : j < (newTextSources parsed payload).length) → j < i →
        asString (getField ((newTextSources parsed payload).get ⟨j, hj⟩).1
          ((newTextSources parsed payload).get ⟨j, hj⟩).2) = none) →
      asString (getField ((newTextSources parsed payload).get ⟨i, hi⟩).1
        ((newTextSources parsed payload).get ⟨i, hi⟩).2) = some s →
      (parseToolEditFields parsed).newText = some s) ∧
    (∀ i s, (hi : i < (oldTextSources parsed payload).length) →
      (∀ j, (hj : j < (oldTextSources parsed payload).length) → j < i →
        asString (getField ((oldTextSources parsed payload).get ⟨j, hj⟩).1
          ((oldTextSources parsed payload).get ⟨j, hj⟩).2) = none) →
      asString (getField ((oldTextSources parsed payload).get ⟨i, hi⟩).1
        ((oldTextSources parsed payload).get ⟨i, hi⟩).2) = some s →
      (parseToolEditFields parsed).oldText = some s) ∧
    (∀ i s, (hi : i < (filePathSources parsed payload).length) →
      (∀ j, (hj : j < (filePathSources parsed payload).length) → j < i →
        asNonEmptyString (getField ((filePathSources parsed payload).get ⟨j, hj⟩).1
          ((filePathSources parsed payload).get ⟨j, hj⟩).2) = none) →
      getField ((filePathSources parsed payload).get ⟨i, hi⟩).1
        ((filePathSources parsed payload).get ⟨i, hi⟩).2 = some (Json.str s) →
      String.mk (trimChars s.data) ≠ "" →
      (parseToolEditFields parsed).filePath = some (String.mk (trimChars s.data))) ∧
    (∀ i s, (hi : i < (diffSources parsed payload).length) →
      (∀ j, (hj : j < (diffSources parsed payload).length) → j < i →
        asNonEmptyString (getField ((diffSources parsed payload).get ⟨j, hj⟩).1
          ((diffSources parsed payload).get ⟨j, hj⟩).2) = none) →
      getField ((diffSources parsed payload).get ⟨i, hi⟩).1
        ((diffSources parsed payload).get ⟨i, hi⟩).2 = some (Json.str s) →
      String.mk (trimChars s.data) ≠ "" →
      (parseToolEditFields parsed).diff = some (String.mk (trimChars s.data))) := by
  refine ⟨?_, ?_, ?_, ?_⟩
  · intro i s hi hprev hcur
    rw [newText_eq_chain parsed payload hpay]
    exact firstStringOver_spec (newTextSources parsed payload) i s hi hprev hcur
  · intro i s hi hprev hcur
    rw [oldText_eq_chain parsed payload hpay]
    exact firstStringOver_spec (oldTextSources parsed payload) i s hi hprev hcur
  · intro i s hi hprev hcur hne
    rw [filePath_eq_chain parsed payload hpay]
    exact firstTrimmedOver_spec (filePathSources parsed payload) i s hi hprev hcur hne
  · intro i s hi hprev hcur hne
    rw [diff_eq_chain parsed payload hpay]
    exact firstTrimmedOver_spec (diffSources parsed payload) i s hi hprev hcur hne

/-- Witness for C9 (amended): a record with a nested `input` object in which
`after` is bound to a number (skipped) and the first string alias is
`content`, resolving `newText` through the `input` payload. -/
theorem toolPayload_alias_resolution_witness :
    (parseToolEditFields
        [("input", Json.obj [("after", Json.num 1), ("content", Json.str "y")]),
         ("new_string", Json.str "z")]).newText = some "y" :=
  (toolPayload_alias_resolution
      [("input", Json.obj [("after", Json.num 1), ("content", Json.str "y")]),
       ("new_string", Json.str "z")]
      [("after", Json.num 1), ("content", Json.str "y")] rfl).1
    3 "y" (by decide)
    (fun j hj hji => by interval_cases j <;> rfl)
    rfl

/-- C9 counterexample: a record binding `new_string` to the empty string and
`newText` to `"x"`. The claim says the empty-string alias is skipped and
`newText = "x"` wins; the code's `asString` accepts the empty string, so the
resolved value is `""`. -/
theorem toolPayload_alias_cex :
    (parseToolEditFields [("new_string", Json.str ""), ("newText", Json.str "x")]).newText =
      some "" ∧
    (parseToolEditFields [("new_string", Json.str ""), ("newText", Json.str "x")]).newText ≠
      some "x" := by
  refine ⟨rfl, ?_⟩
  decide

/-- `isAddedDiffLine`: starts with `+` but not with `+++ `. -/
def isAddedDiffLine (cs : List Char) : Bool :=
  ('+' :: []).isPrefixOf cs && !(('+' :: '+' :: '+' :: ' ' :: []).isPrefixOf cs)

/-- `isRemovedDiffLine`: starts with `-` but not with `--- `. -/
def isRemovedDiffLine (cs : List Char) : Bool :=
  ('-' :: []).isPrefixOf cs && !(('-' :: '-' :: '-' :: ' ' :: []).isPrefixOf cs)

/-- Numeric value of a digit run (the regex capture fed to `Number(...)`;
digit-only captures are always finite, so the `isFinite` guard never fires
for realistic line numbers). -/
def digitsToNat (ds : List Char) : Nat :=
  ds.foldl (fun acc c => acc * 10 + (c.toNat - '0'.toNat)) 0

/-- Consume an optional `,digits` group (the regex `(?:,\\d+)?`). -/
def afterOptComma (cs : List Char) : List Char :=
  match cs with
  | ',' :: rest =>
    if rest.takeWhile Char.isDigit = [] then cs else rest.dropWhile Char.isDigit
  | _ => cs

/-- Match `@@ -(\\d+)(?:,\\d+)? \\+(\\d+)(?:,\\d+)? @@` at the start of `cs`. -/
def matchHunkHeaderAt (cs : List Char) : Option (Nat × Nat) :=
  if ('@' :: '@' :: ' ' :: '-' :: []).isPrefixOf cs then
    let r0 := cs.drop 4
    let ds1 := r0.takeWhile Char.isDigit
    if ds1 = [] then none
    else
      let r1 := afterOptComma (r0.dropWhile Char.isDigit)
      if (' ' :: '+' :: []).isPrefixOf r1 then
        let r2 := r1.drop 2
        let ds2 := r2.takeWhile Char.isDigit
        if ds2 = [] then none
        else
          let r3 := afterOptComma (r2.dropWhile Char.isDigit)
          if (' ' :: '@' :: '@' :: []).isPrefixOf r3 then
            some (digitsToNat ds1, digitsToNat ds2)
          else none
      else none
  else none

/-- `parseDiffHunkStart`: the regex `exec` searches the line left to right
for the first hunk-header match. -/
def searchHunkHeader : List Char → Option (Nat × Nat)
  | [] => matchHunkHeaderAt []
  | c :: rest =>
    match matchHunkHeaderAt (c :: rest) with
    | some r => some r
    | none => searchHunkHeader rest

/-- Kind of a classified diff row. -/
inductive RowKind where
  | context : RowKind
  | add : RowKind
  | remove : RowKind
  | meta : RowKind
deriving DecidableEq, Repr

/-- One rendered diff row of `DiffBlock`: kind, displayed old/new line
numbers, displayed content, and the inline word spans for paired rows. -/
structure DiffRow where
  kind : RowKind
  oldNo : Option Nat
  newNo : Option Nat
  content : String
  inlineSpans : Option (List Span)
deriving DecidableEq, Repr

/-- The row-classification loop of `DiffBlock`, carrying the two line-number
cursors (both initialized to 1 by the caller): hunk headers reset the
cursors (parse failure keeps them) and emit Meta; a Remove line immediately
followed by an Add line emits a paired Remove/Add with inline word spans and
advances both cursors; lone Add/Remove lines advance one cursor; other
header lines emit Meta; everything else is Context (one leading space
stripped) advancing both cursors. -/
def classifyAux (oldNo newNo : Nat) (lines : List (List Char)) : List DiffRow :=
  match lines with
  | [] => []
  | l :: rest =>
    if ('@' :: '@' :: []).isPrefixOf l then
      let cursors := match searchHunkHeader l with
        | some r => r
        | none => (oldNo, newNo)
      ⟨.meta, none, none, String.mk l, none⟩ :: classifyAux cursors.1 cursors.2 rest
    else if isRemovedDiffLine l && isAddedDiffLine (rest.head?.getD []) then
      let nextLine := rest.head?.getD []
      let inl := diffInlineSegments (String.mk (l.drop 1)) (String.mk (nextLine.drop 1))
      ⟨.remove, some oldNo, none, String.mk (l.drop 1), some inl.1⟩ ::
      ⟨.add, none, some newNo, String.mk (nextLine.drop 1), some inl.2⟩ ::
      classifyAux (oldNo + 1) (newNo + 1) (rest.drop 1)
    else if isAddedDiffLine l then
      ⟨.add, none, some newNo, String.mk (l.drop 1), none⟩ ::
        classifyAux oldNo (newNo + 1) rest
    else if isRemovedDiffLine l then
      ⟨.remove, some oldNo, none, String.mk (l.drop 1), none⟩ ::
        classifyAux (oldNo + 1) newNo rest
    else if ("diff --git".data.isPrefixOf l) || ("index ".data.isPrefixOf l) ||
        ("--- ".data.isPrefixOf l) || ("+++ ".data.isPrefixOf l) then
      ⟨.meta, none, none, String.mk l, none⟩ :: classifyAux oldNo newNo rest
    else
      ⟨.context, some oldNo, some newNo,
          String.mk (if (' ' :: []).isPrefixOf l then l.drop 1 else l), none⟩ ::
        classifyAux (oldNo + 1) (newNo + 1) rest
termination_by lines.length
decreasing_by
  · simp
  · simp [List.length_drop]
    omega
  · simp
  · simp
  · simp
  · simp

/-- `classifyDiffRows(diffText)`: split into lines and classify with both
cursors starting at 1. -/
def classifyDiffRows (s : String) : List DiffRow :=
  classifyAux 1 1 (splitLinesChars s.data)

/-- `value.includes(sub)`. -/
def containsSub (hay sub : List Char) : Bool :=
  hay.tails.any (fun t => sub.isPrefixOf t)

/-- `isLikelyDiff(language, codeValue)`: diff-ish language, or a strong
marker line, or at least one added and one removed line with at least four
diff-shaped lines in total. -/
def isLikelyDiff (language : String) (codeValue : String) : Bool :=
  if containsSub language.data "diff".data || language = "patch" then true
  else
    let lines := (splitLinesChars codeValue.data).filter (fun l => !l.isEmpty)
    if lines.isEmpty then false
    else
      let strong := lines.any (fun l => ('@' :: '@' :: []).isPrefixOf l ||
        "diff --git".data.isPrefixOf l || "--- ".data.isPrefixOf l ||
        "+++ ".data.isPrefixOf l)
      if strong then true
      else
        let added := (lines.filter isAddedDiffLine).length
        let removed := (lines.filter isRemovedDiffLine).length
        let ctx := (lines.filter (fun l => (' ' :: []).isPrefixOf l)).length
        decide (0 < added) && decide (0 < removed) &&
          decide (4 ≤ added + removed + ctx)

theorem splitLinesChars_append_nl (cs : List Char) :
    (∀ c ∈ cs, c ≠ '\n' ∧ c ≠ '\x0d') → ∀ ds : List Char,
      splitLinesChars (cs ++ '\n' :: ds) = cs :: splitLinesChars ds := by
  induction cs with
  | nil => intro h ds; rfl
  | cons c cs ih =>
    intro h ds
    have hc := h c (List.mem_cons_self _ _)
    rw [List.cons_append, splitLinesChars.eq_def]
    split
    · rename_i heq
      cases heq
    · rename_i heq
      exact absurd (List.cons.inj heq).1 hc.1
    · rename_i heq
      exact absurd (List.cons.inj heq).1 hc.2
    · rename_i heq
      obtain ⟨hch, hrest⟩ := List.cons.inj heq
      rw [← hrest, ih (fun x hx => h x (List.mem_cons_of_mem _ hx)) ds, ← hch]
      rfl
    · rename_i heq
      obtain ⟨hch, hrest⟩ := List.cons.inj heq
      rw [← hrest, ih (fun x hx => h x (List.mem_cons_of_mem _ hx)) ds, ← hch]
      rfl

/-- C10: classifying diff text with no `@@` header numbers rows from cursors
`(1, 1)` exactly as if a `@@ -1 +1 @@` header preceded the text: prepending
that header contributes only its own Meta row and leaves every following
row, and its numbering, unchanged; and body-only text with enough `+`/`-`
lines is accepted by the diff detector. -/
theorem classifyDiffRows_header_init :
    (∀ s : String,
      classifyDiffRows (String.mk ("@@ -1 +1 @@".data ++ '\n' :: s.data)) =
        ⟨RowKind.meta, none, none, "@@ -1 +1 @@", none⟩ :: classifyDiffRows s) ∧
    isLikelyDiff "" "-a\n+b\n-c\n+d" = true := by
  refine ⟨?_, by decide⟩
  intro s
  unfold classifyDiffRows
  rw [show (String.mk ("@@ -1 +1 @@".data ++ '\n' :: s.data)).data =
    "@@ -1 +1 @@".data ++ '\n' :: s.data from rfl]
  rw [splitLinesChars_append_nl "@@ -1 +1 @@".data (by decide) s.data]
  rw [classifyAux]
  rw [if_pos (by decide)]
  rw [show searchHunkHeader "@@ -1 +1 @@".data = some (1, 1) from by decide]

end Cch
